import Mathlib

/-
Verification of the email-extraction engine in process_emails.py
(class EmailParser and its parse method).

Python strings are modelled as lists of characters (Str).  Character
classes model Python's re module on the character ranges the engine
relies on; case folding is modelled on ASCII letters.
-/

namespace ProcessEmails

abbrev Str := List Char

/-- Python regex word character, `\w` (modelled on the ASCII range). -/
def isWordChar (c : Char) : Bool := c.isAlphanum || c == '_'

/-- Python regex whitespace, `\s` (the ASCII whitespace characters). -/
def isSpaceChar (c : Char) : Bool :=
  c == ' ' || c == '\t' || c == '\n' || c == '\r' ||
    c == Char.ofNat 11 || c == Char.ofNat 12

/-- Character class of the regex `[\w\-]`. -/
def isWordDash (c : Char) : Bool := isWordChar c || c == '-'

/-- Python str.lower, modelled on ASCII letters. -/
def lowerStr (s : Str) : Str := s.map Char.toLower

/-- Whether the character at index i exists and is a word character. -/
def isWordAt (s : Str) (i : Nat) : Bool :=
  match s[i]? with
  | some c => isWordChar c
  | none => false

/-- Python regex `\b`: a word/non-word transition at position i
(positions outside the string count as non-word). -/
def wordBoundary (s : Str) (i : Nat) : Bool :=
  (if i = 0 then false else isWordAt s (i - 1)) != isWordAt s i

/-- Length of the maximal run of characters satisfying f starting at index i. -/
def runLen (f : Char → Bool) (s : Str) (i : Nat) : Nat :=
  ((s.drop i).takeWhile f).length

/-- The descending list [n, n-1, ..., 1]: the order in which a greedy
`+`-quantifier tries match lengths when backtracking. -/
def descList (n : Nat) : List Nat := (List.range n).map (fun t => n - t)

/-- Value of a digit string, as computed by Python int(). -/
def natOfDigits (ds : Str) : Nat := ds.foldl (fun a c => a * 10 + (c.toNat - 48)) 0

/-- First index i in [p, s.length] at which the matcher m succeeds,
with the match payload; none if no position matches.  Models the scan
that the re module performs to find the leftmost match. -/
def findFirstFrom (s : Str) (p : Nat) (m : Nat → Option α) : Option (Nat × α) :=
  (List.range (s.length + 1)).findSome? (fun i =>
    if p ≤ i then (m i).map (fun a => (i, a)) else none)

/-- One step of re.finditer: leftmost matches, scanning resumes at the end
of each match (or one past a zero-width match).  The matcher returns the
end position and a payload; results are (start, end, payload).  Fuel bounds
the recursion; fuel = s.length + 1 suffices since the scan position strictly
increases. -/
def finditerAux (s : Str) (m : Nat → Option (Nat × α)) : Nat → Nat → List (Nat × Nat × α)
  | 0, _ => []
  | fuel + 1, p =>
    match findFirstFrom s p m with
    | none => []
    | some (i, (e, a)) => (i, e, a) :: finditerAux s m fuel (if i < e then e else i + 1)

/-- re.finditer over the whole string. -/
def finditer (s : Str) (m : Nat → Option (Nat × α)) : List (Nat × Nat × α) :=
  finditerAux s m (s.length + 1) 0

/-- Matcher for the key (an escaped literal) followed by `\b`, starting at j;
returns the end position. -/
def tryKeyAt (s key : Str) (j : Nat) : Option Nat :=
  if key.isPrefixOf (s.drop j) && wordBoundary s (j + key.length) then
    some (j + key.length)
  else none

/-- Matcher at one position for the quantity pattern
`\b(\d+)\s+(?:\w+\s+)?<key>\b` (the pattern built in EmailParser.parse).
Implements the backtracking preference order of a Python regex engine:
each greedy `+` tries its maximal run first, the optional group is tried
present before absent.  Returns (end position, text of group 1). -/
def qtyMatchAt (s key : Str) (i : Nat) : Option (Nat × Str) :=
  if wordBoundary s i then
    let maxD := runLen Char.isDigit s i
    (descList maxD).findSome? (fun d =>
      let j := i + d
      let maxS := runLen isSpaceChar s j
      (descList maxS).findSome? (fun sp =>
        let k := j + sp
        let maxW := runLen isWordChar s k
        let withFiller := (descList maxW).findSome? (fun w =>
          let l := k + w
          let maxS2 := runLen isSpaceChar s l
          (descList maxS2).findSome? (fun s2 => tryKeyAt s key (l + s2)))
        let res := match withFiller with
          | some e => some e
          | none => tryKeyAt s key k
        res.map (fun e => (e, (s.drop i).take d))))
  else none

/-- All matches of the quantity pattern for one alias key, as
(start, end, group-1 digit string). -/
def qtyFinditer (s key : Str) : List (Nat × Nat × Str) :=
  finditer s (qtyMatchAt s key)

/-- Matcher at one position for the bare-mention pattern `\b<key>\b`. -/
def bareMatchAt (s key : Str) (i : Nat) : Option (Nat × Unit) :=
  if wordBoundary s i && key.isPrefixOf (s.drop i) && wordBoundary s (i + key.length) then
    some (i + key.length, ())
  else none

/-- All matches of the bare-mention pattern, as (start, end). -/
def bareFinditer (s key : Str) : List (Nat × Nat) :=
  (finditer s (bareMatchAt s key)).map (fun r => (r.1, r.2.1))

/-- Case-insensitive literal match of "and" at position k. -/
def andLiteralAt (s : Str) (k : Nat) : Bool :=
  lowerStr ((s.drop k).take 3) == [ 'a', 'n', 'd' ]

/-- Matcher at one position for the conjunction pattern
`\b([\w\-]+)\s+and\s+([\w\-]+)\b` (IGNORECASE), with backtracking
preference order; returns (end position, (group 1, group 2)). -/
def conjMatchAt (s : Str) (i : Nat) : Option (Nat × (Str × Str)) :=
  if wordBoundary s i then
    let maxW1 := runLen isWordDash s i
    (descList maxW1).findSome? (fun w1 =>
      let j := i + w1
      let maxS1 := runLen isSpaceChar s j
      (descList maxS1).findSome? (fun sp1 =>
        let k := j + sp1
        if andLiteralAt s k then
          let l := k + 3
          let maxS2 := runLen isSpaceChar s l
          (descList maxS2).findSome? (fun sp2 =>
            let m := l + sp2
            let maxW2 := runLen isWordDash s m
            (descList maxW2).findSome? (fun w2 =>
              if wordBoundary s (m + w2) then
                some (m + w2, ((s.drop i).take w1, (s.drop m).take w2))
              else none))
        else none))
  else none

/-- All matches of the conjunction pattern, as (start, end, (word1, word2)). -/
def conjFinditer (s : Str) : List (Nat × Nat × (Str × Str)) :=
  finditer s (conjMatchAt s)

/-- re.findall of `[\w\-]+`, fuel-based: each step consumes at least one
character, so fuel = s.length suffices. -/
def tokenizeAux : Nat → Str → List Str
  | 0, _ => []
  | _, [] => []
  | fuel + 1, c :: rest =>
    if isWordDash c then
      (c :: rest.takeWhile isWordDash) :: tokenizeAux fuel (rest.dropWhile isWordDash)
    else
      tokenizeAux fuel rest

/-- re.findall of `[\w\-]+`: the maximal runs of word/dash characters,
in order (the tokenisation used by the verb-proximity heuristic). -/
def tokenize (s : Str) : List Str := tokenizeAux s.length s

/-! SHA-256 (hashlib.sha256), over byte lists, with 32-bit words as Nat mod 2^32. -/

def add32 (a b : Nat) : Nat := (a + b) % 4294967296

def rotr32 (n x : Nat) : Nat := ((x >>> n) ||| (x <<< (32 - n))) % 4294967296

def not32 (x : Nat) : Nat := x ^^^ 4294967295

def bsig0 (x : Nat) : Nat := rotr32 2 x ^^^ rotr32 13 x ^^^ rotr32 22 x

def bsig1 (x : Nat) : Nat := rotr32 6 x ^^^ rotr32 11 x ^^^ rotr32 25 x

def ssig0 (x : Nat) : Nat := rotr32 7 x ^^^ rotr32 18 x ^^^ (x >>> 3)

def ssig1 (x : Nat) : Nat := rotr32 17 x ^^^ rotr32 19 x ^^^ (x >>> 10)

def chFn (x y z : Nat) : Nat := (x &&& y) ^^^ (not32 x &&& z)

def majFn (x y z : Nat) : Nat := (x &&& y) ^^^ (x &&& z) ^^^ (y &&& z)

def shaK : List Nat :=
  [
    1116352408, 1899447441, 3049323471, 3921009573, 961987163, 1508970993,
    2453635748, 2870763221, 3624381080, 310598401, 607225278, 1426881987,
    1925078388, 2162078206, 2614888103, 3248222580, 3835390401, 4022224774,
    264347078, 604807628, 770255983, 1249150122, 1555081692, 1996064986,
    2554220882, 2821834349, 2952996808, 3210313671, 3336571891, 3584528711,
    113926993, 338241895, 666307205, 773529912, 1294757372, 1396182291,
    1695183700, 1986661051, 2177026350, 2456956037, 2730485921, 2820302411,
    3259730800, 3345764771, 3516065817, 3600352804, 4094571909, 275423344,
    430227734, 506948616, 659060556, 883997877, 958139571, 1322822218,
    1537002063, 1747873779, 1955562222, 2024104815, 2227730452, 2361852424,
    2428436474, 2756734187, 3204031479, 3329325298 ]

abbrev Hash8 := Nat × Nat × Nat × Nat × Nat × Nat × Nat × Nat

def shaInit : Hash8 :=
  (1779033703, 3144134277, 1013904242, 2773480762, 1359893119, 2600822924, 528734635, 1541459225)

/-- Extend a 16-word block to the 64-word message schedule, n more words. -/
def extendSchedule (ws : List Nat) : Nat → List Nat
  | 0 => ws
  | n + 1 =>
    let len := ws.length
    let w := add32 (add32 (ssig1 (ws.getD (len - 2) 0)) (ws.getD (len - 7) 0))
                   (add32 (ssig0 (ws.getD (len - 15) 0)) (ws.getD (len - 16) 0))
    extendSchedule (ws ++ [ w ]) n

def roundStep (s : Hash8) (kw : Nat × Nat) : Hash8 :=
  let (a, b, c, d, e, f, g, h) := s
  let t1 := add32 h (add32 (bsig1 e) (add32 (chFn e f g) (add32 kw.1 kw.2)))
  let t2 := add32 (bsig0 a) (majFn a b c)
  (add32 t1 t2, a, b, c, add32 d t1, e, f, g)

/-- Group bytes into 32-bit big-endian words. -/
def bytesToWords : List Nat → List Nat
  | b0 :: b1 :: b2 :: b3 :: rest =>
    ((b0 <<< 24) ||| (b1 <<< 16) ||| (b2 <<< 8) ||| b3) :: bytesToWords rest
  | _ => []

def processBlock (h : Hash8) (block : List Nat) : Hash8 :=
  let ws := extendSchedule (bytesToWords block) 48
  let (a, b, c, d, e, f, g, hh) := (shaK.zip ws).foldl roundStep h
  let (h0, h1, h2, h3, h4, h5, h6, h7) := h
  (add32 h0 a, add32 h1 b, add32 h2 c, add32 h3 d,
   add32 h4 e, add32 h5 f, add32 h6 g, add32 h7 hh)

/-- SHA-256 padding: append 0x80, zeros to 56 mod 64, then the bit length
as 8 big-endian bytes. -/
def padMessage (msg : List Nat) : List Nat :=
  let len := msg.length
  let zeros := (120 - ((len + 1) % 64)) % 64
  let bitLen := 8 * len
  msg ++ [ 128 ] ++ List.replicate zeros 0 ++
    (List.range 8).map (fun i => (bitLen >>> (56 - 8 * i)) % 256)

/-- Split into 64-byte blocks, fuel-based: each step consumes at least one
byte, so fuel = l.length suffices. -/
def chunk64Aux : Nat → List Nat → List (List Nat)
  | 0, _ => []
  | _, [] => []
  | fuel + 1, c :: rest => (c :: rest).take 64 :: chunk64Aux fuel ((c :: rest).drop 64)

def chunk64 (l : List Nat) : List (List Nat) := chunk64Aux l.length l

def sha256Words (msg : List Nat) : Hash8 :=
  (chunk64 (padMessage msg)).foldl processBlock shaInit

def hexAlphabet : Str := ( r"0123456789abcdef").toList

def hexDigitChar (n : Nat) : Char := hexAlphabet.getD n '0'

/-- Fixed-width (8 hex characters) rendering of a 32-bit word. -/
def toHex8 (w : Nat) : Str :=
  (List.range 8).map (fun i => hexDigitChar ((w >>> (28 - 4 * i)) % 16))

def sha256Hex (msg : List Nat) : Str :=
  let (h0, h1, h2, h3, h4, h5, h6, h7) := sha256Words msg
  toHex8 h0 ++ toHex8 h1 ++ toHex8 h2 ++ toHex8 h3 ++
    toHex8 h4 ++ toHex8 h5 ++ toHex8 h6 ++ toHex8 h7

/-- UTF-8 encoding of one character. -/
def utf8Bytes (c : Char) : List Nat :=
  let n := c.toNat
  if n < 128 then [ n ]
  else if n < 2048 then [ 192 ||| (n >>> 6), 128 ||| (n &&& 63) ]
  else if n < 65536 then
    [ 224 ||| (n >>> 12), 128 ||| ((n >>> 6) &&& 63), 128 ||| (n &&& 63) ]
  else
    [ 240 ||| (n >>> 18), 128 ||| ((n >>> 12) &&& 63),
      128 ||| ((n >>> 6) &&& 63), 128 ||| (n &&& 63) ]

def utf8Encode (s : Str) : List Nat := s.flatMap utf8Bytes

/-- email_id: first 16 hex characters of the SHA-256 of the UTF-8 text
(hashlib.sha256(text.encode('utf-8')).hexdigest()[:16]). -/
def emailId (text : Str) : Str := (sha256Hex (utf8Encode text)).take 16

/-! Data model: the event record built by EmailParser.parse.  Confidence
scores are modelled as rationals. -/

/-- A value with confidence and notes, one of the per-field dicts of the
event structure. -/
structure Field (α : Type) where
  value : Option α
  confidence : ℚ
  notes : Str
deriving DecidableEq

structure Item where
  product_name : Field Str
  quantity : Field Nat
  unit : Field Str
deriving DecidableEq

/-- One tuple of the items_found list: (name, quantity, confidence, note). -/
structure Mention where
  name : Str
  qty : Option Nat
  conf : ℚ
  note : Str
deriving DecidableEq

/-- Catalog metadata for a product; only the field read by parse
(unit_of_measure) is modelled.  A missing key maps to none. -/
structure ProductMeta where
  unit_of_measure : Option Str
deriving DecidableEq

/-- The configuration dict, restricted to the keys the engine reads
('currency', 'default_unit') together with the key named by the design
document ('default_currency'); each is none when absent (dict.get). -/
structure Config where
  currency : Option Str
  default_currency : Option Str
  default_unit : Option Str
deriving DecidableEq

instance : Inhabited ProductMeta := ⟨⟨none⟩⟩

instance : Inhabited Config := ⟨⟨none, none, none⟩⟩

/-- The event dict.  The 'from' key is called fromField (from is reserved). -/
structure Event where
  email_id : Str
  fromField : Field Str
  subject : Field Str
  items : List Item
  currency : Field Str
  missing_fields : List Str
deriving DecidableEq

abbrev PriceList := List (Str × ProductMeta)

/-! Python dicts, modelled as association lists with insertion-order
iteration: writing to an existing key updates it in place, writing to a
fresh key appends. -/

def dictInsert (d : List (Str × α)) (k : Str) (v : α) : List (Str × α) :=
  if d.any (fun p => decide (p.1 = k)) then
    d.map (fun p => if p.1 = k then (k, v) else p)
  else d ++ [(k, v)]

def dictLookup : List (Str × α) → Str → Option α
  | [], _ => none
  | p :: rest, k => if p.1 = k then some p.2 else dictLookup rest k

def dictHasKey (d : List (Str × α)) (k : Str) : Bool :=
  (dictLookup d k).isSome

/-- Python str.endswith('s') on an already lower-cased string. -/
def endsInS (s : Str) : Bool := s.getLast? == some 's'

/-- EmailParser.__init__: the alias map self.product_names.  Each catalog
name registers its lower-cased form, and, when that does not already end
in 's', also the naive plural. -/
def buildProductNames (names : List Str) : List (Str × Str) :=
  names.foldl (fun d name =>
    let lc := lowerStr name
    let d1 := dictInsert d lc name
    if !endsInS lc then dictInsert d1 (lc ++ [ 's' ]) name else d1) []

/-! Known-product matcher (parse, quantity and bare-mention loops). -/

/-- The Item tuple for one quantity-pattern match: group(1) parsed as int
when non-empty, confidence 0.9. -/
def mkQtyMention (canonical g1 : Str) : Mention :=
  { name := canonical,
    qty := if g1.isEmpty then none else some (natOfDigits g1),
    conf := (9 : ℚ)/10, note := [] }

/-- The bare matches that survive: those whose span is not contained in
the span of any quantity match of the same alias (the overlaps_quantity
loop). -/
def bareKept (s key : Str) : List (Nat × Nat) :=
  (bareFinditer s key).filter (fun b =>
    !((qtyFinditer s key).any (fun q => decide (q.1 ≤ b.1) && decide (b.2 ≤ q.2.1))))

/-- Mentions contributed by one alias: all quantity matches (conf 0.9),
then the surviving bare matches (conf 0.6). -/
def mentionsForAlias (body key canonical : Str) : List Mention :=
  ((qtyFinditer body key).map (fun q => mkQtyMention canonical q.2.2)) ++
    ((bareKept body key).map (fun _ =>
      { name := canonical, qty := none, conf := (6 : ℚ)/10, note := [] }))

/-- The whole known-product loop over self.product_names.items(), with the
guard that skips aliases that are neither the canonical's lower case nor
its naive plural. -/
def knownMentions (pn : List (Str × Str)) (body : Str) : List Mention :=
  pn.flatMap (fun kc =>
    if !(lowerStr kc.2 == kc.1) && !(lowerStr kc.2 ++ [ 's' ] == kc.1) then []
    else mentionsForAlias body kc.1 kc.2)

/-! Unknown-product candidate detector. -/

def stopwords : List Str :=
  [ r"some".toList, r"any".toList, r"more".toList, r"few".toList, r"asap".toList,
    r"pricing".toList, r"price".toList, r"cost".toList, r"time".toList,
    r"info".toList, r"information".toList, r"availability".toList, r"please".toList,
    r"could".toList, r"looking".toList, r"items".toList, r"item".toList,
    r"product".toList, r"products".toList, r"it".toList, r"them".toList,
    r"they".toList, r"your".toList, r"our".toList, r"quote".toList, r"yet".toList,
    r"us".toList, r"about".toList, r"to".toList, r"and".toList, r"thanks".toList,
    r"thank".toList, r"get".toList, r"me".toList, r"how".toList, r"many".toList,
    r"if".toList, r"there".toList, r"let".toList, r"know".toList, r"hello".toList,
    r"hi".toList, r"we".toList, r"i".toList, r"my".toList, r"you".toList,
    r"also".toList, r"regards".toList, r"cheers".toList, r"kind".toList,
    r"best".toList, r"team".toList ]

def verbTokens : List Str :=
  [ r"order".toList, r"buy".toList, r"purchase".toList, r"need".toList, r"looking".toList ]

/-- Python str.title (modelled on ASCII letters): a letter is upper-cased
after a non-letter, lower-cased after a letter. -/
def pyTitleAux : Bool → Str → Str
  | _, [] => []
  | prev, c :: rest =>
    if c.isAlpha then (if prev then c.toLower else c.toUpper) :: pyTitleAux true rest
    else c :: pyTitleAux false rest

def pyTitle (s : Str) : Str := pyTitleAux false s

/-- The conjunction heuristic over the original-case body. -/
def conjCandidates (pn : List (Str × Str)) (body : Str) : List Str :=
  (conjFinditer body).flatMap (fun m =>
    let first := m.2.2.1
    let second := m.2.2.2
    let firstLc := lowerStr first
    let secondLc := lowerStr second
    if dictHasKey pn firstLc != dictHasKey pn secondLc then
      let candidate := if dictHasKey pn firstLc then second else first
      let candLc := lowerStr candidate
      if !dictHasKey pn candLc && !stopwords.contains candLc && endsInS candLc then
        [ pyTitle candidate ]
      else []
    else [])

/-- The characters stripped from a scanned token: .,;:'"!? -/
def stripSet : List Char :=
  [ '.', ',', ';', ':', Char.ofNat 39, Char.ofNat 34, '!', '?' ]

/-- Python str.strip(chars). -/
def pyStrip (chars : List Char) (s : Str) : Str :=
  (((s.dropWhile (fun c => chars.contains c)).reverse.dropWhile
      (fun c => chars.contains c)).reverse)

/-- Inner loop of the verb-proximity heuristic over a window of up to 4
tokens: skip tokens that are known aliases, stopwords, or not
plural-looking; the first token passing all checks is the candidate. -/
def scanWindow (pn : List (Str × Str)) : List Str → Option Str
  | [] => none
  | t :: rest =>
    let candidate := pyStrip stripSet t
    let candLc := lowerStr candidate
    if dictHasKey pn candLc || stopwords.contains candLc then scanWindow pn rest
    else if !endsInS candLc then scanWindow pn rest
    else some (pyTitle candidate)

/-- The verb-proximity heuristic over the token list of the body. -/
def verbCandidates (pn : List (Str × Str)) (tokens : List Str) : List Str :=
  (List.range tokens.length).flatMap (fun i =>
    match tokens[i]? with
    | some t =>
      if verbTokens.contains (lowerStr t) then
        match scanWindow pn ((tokens.drop (i + 1)).take 4) with
        | some c => [ c ]
        | none => []
      else []
    | none => [])

/-- Deduplication preserving first-seen order (the seen_unknown loop);
seen is tracked as a membership-only accumulator. -/
def dedupFirstAux (seen : List Str) : List Str → List Str
  | [] => []
  | c :: rest =>
    if seen.contains c then dedupFirstAux seen rest
    else c :: dedupFirstAux (c :: seen) rest

def dedupFirst (l : List Str) : List Str := dedupFirstAux [] l

/-! Consolidation. -/

/-- price_list.get(key_name, {}).get('unit_of_measure', config.get('default_unit')). -/
def unitFor (pl : PriceList) (cfg : Config) (name : Str) : Option Str :=
  match dictLookup pl name with
  | some meta =>
    match meta.unit_of_measure with
    | some u => some u
    | none => cfg.default_unit
  | none => cfg.default_unit

/-- The Item created for the first mention of a name. -/
def seedItem (pl : PriceList) (cfg : Config) (m : Mention) : Item :=
  { product_name := { value := some m.name, confidence := m.conf, notes := m.note },
    quantity := { value := m.qty,
                  confidence := if m.qty.isSome then m.conf else 0,
                  notes := if m.qty.isSome then [] else ( r"quantity missing").toList },
    unit := { value := unitFor pl cfg m.name, confidence := (8 : ℚ)/10, notes := [] } }

/-- Merging a further mention of an already-seen name: adopt the quantity
only when still unset, then raise the product confidence to the max. -/
def mergeItem (it : Item) (m : Mention) : Item :=
  let it1 :=
    if it.quantity.value.isNone && m.qty.isSome then
      { it with quantity := { value := m.qty, confidence := m.conf, notes := [] } }
    else it
  { it1 with product_name :=
      { it1.product_name with confidence := max it1.product_name.confidence m.conf } }

def consolidateStep (pl : PriceList) (cfg : Config)
    (acc : List (Str × Item)) (m : Mention) : List (Str × Item) :=
  match dictLookup acc m.name with
  | none => acc ++ [(m.name, seedItem pl cfg m)]
  | some _ => acc.map (fun p => if p.1 = m.name then (p.1, mergeItem p.2 m) else p)

/-- The consolidated dict, keyed by product name, in insertion order. -/
def consolidate (pl : PriceList) (cfg : Config) (ms : List Mention) : List (Str × Item) :=
  ms.foldl (consolidateStep pl cfg) []

/-! Header splitter. -/

def initField : Field Str := { value := none, confidence := 0, notes := [] }

/-- Python str.strip() (whitespace on both ends). -/
def pyStripWS (s : Str) : Str :=
  ((s.dropWhile isSpaceChar).reverse.dropWhile isSpaceChar).reverse

/-- line.split(':', 1)[1].strip(). -/
def headerValue (line : Str) : Str :=
  pyStripWS ((line.dropWhile (fun c => !(c == ':'))).drop 1)

def isFromLine (line : Str) : Bool :=
  ( r"from:").toList.isPrefixOf (lowerStr line)

def isSubjectLine (line : Str) : Bool :=
  ( r"subject:").toList.isPrefixOf (lowerStr line)

def mkHeaderField (v missingNote : Str) : Field Str :=
  { value := some v,
    confidence := if !v.isEmpty then (95 : ℚ)/100 else 0,
    notes := if !v.isEmpty then [] else missingNote }

/-- One header line: a From: line rewrites the sender field, otherwise a
Subject: line rewrites the subject field. -/
def headerStep (fs : Field Str × Field Str) (line : Str) : Field Str × Field Str :=
  if isFromLine line then
    (mkHeaderField (headerValue line) (( r"missing sender").toList), fs.2)
  else if isSubjectLine line then
    (fs.1, mkHeaderField (headerValue line) (( r"missing subject").toList))
  else fs

def extractHeaderFields (lines : List Str) : Field Str × Field Str :=
  lines.foldl headerStep (initField, initField)

/-- Python universal line-break characters (str.splitlines). -/
def isLineBreak (c : Char) : Bool :=
  c == '\n' || c == '\r' || c == Char.ofNat 11 || c == Char.ofNat 12 ||
    c == Char.ofNat 28 || c == Char.ofNat 29 || c == Char.ofNat 30 ||
    c == Char.ofNat 133 || c == Char.ofNat 8232 || c == Char.ofNat 8233

/-- str.splitlines; fuel counts consumed characters, s.length suffices. -/
def splitlinesAux : Nat → Str → List Str
  | 0, _ => []
  | _, [] => []
  | fuel + 1, s =>
    let line := s.takeWhile (fun c => !isLineBreak c)
    let rest := s.drop line.length
    match rest with
    | [] => [ line ]
    | '\r' :: '\n' :: r => line :: splitlinesAux fuel r
    | _ :: r => line :: splitlinesAux fuel r

def splitlinesPy (s : Str) : List Str := splitlinesAux s.length s

/-- First index at which sep occurs as a prefix of the rest of s. -/
def findSubIdx (s sep : Str) : Option Nat :=
  (List.range (s.length + 1)).find? (fun i => sep.isPrefixOf (s.drop i))

/-- text.split(sep, 1): the part before the first occurrence, and the part
after it (none when sep does not occur). -/
def splitFirst (s sep : Str) : Str × Option Str :=
  match findSubIdx s sep with
  | some i => (s.take i, some (s.drop (i + sep.length)))
  | none => (s, none)

/-! Currency detector. -/

/-- Python substring containment (pat in s). -/
def containsSub (s pat : Str) : Bool :=
  (List.range (s.length + 1)).any (fun i => pat.isPrefixOf (s.drop i))

/-- The currency block of parse, over the lower-cased body.  The default
branch reads the config key 'currency' (self.config.get('currency')). -/
def currencyField (cfg : Config) (bodyLower : Str) : Field Str :=
  let currencyMatch : Option Str :=
    if containsSub bodyLower (( r"usd").toList) || containsSub bodyLower [ '$' ] then
      some (( r"USD").toList)
    else if containsSub bodyLower (( r"inr").toList) || containsSub bodyLower [ '₹' ] ||
        containsSub bodyLower (( r"rupees").toList) then
      some (( r"INR").toList)
    else none
  match currencyMatch with
  | some c => { value := some c, confidence := (8 : ℚ)/10, notes := [] }
  | none => { value := cfg.currency, confidence := (1 : ℚ)/2,
              notes := ( r"default currency assumed").toList }

/-! Missing-field analyzer. -/

/-- Python truthiness of an Optional[str]: falsy when None or empty. -/
def falsyStrOpt (v : Option Str) : Bool :=
  match v with
  | none => true
  | some s => s.isEmpty

/-- f-string interpolation of an Optional[str] (str(None) = "None"). -/
def fStr (v : Option Str) : Str :=
  match v with
  | some s => s
  | none => ( r"None").toList

/-- Python membership of an Optional[str] in the price_list dict keys. -/
def valueHasKey (pl : PriceList) (v : Option Str) : Bool :=
  match v with
  | some s => dictHasKey pl s
  | none => false

/-- The missing-field block at the end of parse. -/
def missingFields (pl : PriceList) (fromF subjF : Field Str) (items : List Item) : List Str :=
  (if falsyStrOpt fromF.value then [ ( r"from").toList ] else []) ++
  (if falsyStrOpt subjF.value then [ ( r"subject").toList ] else []) ++
  (if items.isEmpty then [ ( r"items").toList ]
   else items.flatMap (fun it =>
     (if it.quantity.value.isNone then
        [ ( r"quantity for ").toList ++ fStr it.product_name.value ] else []) ++
     (if !valueHasKey pl it.product_name.value then
        [ ( r"price for ").toList ++ fStr it.product_name.value ] else [])))

/-- The mention list for the surviving unknown candidates. -/
def unknownMentions (cands : List Str) : List Mention :=
  (dedupFirst cands).map (fun c =>
    { name := c, qty := none, conf := (2 : ℚ)/10, note := ( r"unknown product").toList })

/-- EmailParser.parse: the full pipeline. -/
def parse (pl : PriceList) (cfg : Config) (text : Str) : Event :=
  let email_id := emailId text
  let hb := splitFirst text [ '\n', '\n' ]
  let header := hb.1
  let body := hb.2.getD []
  let fs := extractHeaderFields (splitlinesPy header)
  let bodyLower := lowerStr body
  let currency := currencyField cfg bodyLower
  let pn := buildProductNames (pl.map (fun p => p.1))
  let known := knownMentions pn bodyLower
  let unknownCands := conjCandidates pn body ++ verbCandidates pn (tokenize body)
  let itemsFound := known ++ unknownMentions unknownCands
  let items := (consolidate pl cfg itemsFound).map (fun p => p.2)
  { email_id := email_id,
    fromField := fs.1,
    subject := fs.2,
    items := items,
    currency := currency,
    missing_fields := missingFields pl fs.1 fs.2 items }

/-! Specification-side definitions, written from the design document's
words, for comparison against the code-derived functions above. -/

/-- Whether one catalog name registers the given alias: its lower-cased
form is the alias, or (when the lower-cased form does not end in 's')
its naive plural is. -/
def registersAlias (name al : Str) : Bool :=
  lowerStr name == al || (!endsInS (lowerStr name) && lowerStr name ++ [ 's' ] == al)

/-- First-registration-wins resolution of an alias, as the specification
describes the vocabulary indexer. -/
def firstWins (names : List Str) (al : Str) : Option Str :=
  names.find? (fun n => registersAlias n al)

/-- Last-registration-wins resolution of an alias (what a plain dict
assignment implements). -/
def lastWins (names : List Str) (al : Str) : Option Str :=
  names.reverse.find? (fun n => registersAlias n al)

/-- The header field a last-matching-line extraction yields. -/
def lastHeaderField (isMatch : Str → Bool) (note : Str) (lines : List Str) : Field Str :=
  match lines.reverse.find? isMatch with
  | some l => mkHeaderField (headerValue l) note
  | none => initField

/-- Specification reading of an absent string field value: no value, or an
empty one (the header splitter stores an empty extracted value with
confidence 0 and a missing-... note). -/
def specAbsent (v : Option Str) : Prop := v = none ∨ v = some []

instance (v : Option Str) : Decidable (specAbsent v) := by
  unfold specAbsent
  infer_instance

/-- Specification reading of "the product name is a key in the catalog";
an item without a product-name value never counts as a catalog key. -/
def specCatalogKey (pl : PriceList) (v : Option Str) : Prop :=
  ∃ q ∈ pl, v = some q.1

instance (pl : PriceList) (v : Option Str) : Decidable (specCatalogKey pl v) := by
  unfold specCatalogKey
  infer_instance

/-- The missing-field analyzer as the specification states it: append
"from", then "subject", then either "items" or, per item in list order,
the quantity entry followed by the price entry. -/
def missingFieldsSpec (pl : PriceList) (fromF subjF : Field Str) (items : List Item) : List Str :=
  (if specAbsent fromF.value then [ ( r"from").toList ] else []) ++
  (if specAbsent subjF.value then [ ( r"subject").toList ] else []) ++
  (if items = [] then [ ( r"items").toList ]
   else items.foldr (fun it acc =>
     (if it.quantity.value = none then
        [ ( r"quantity for ").toList ++ fStr it.product_name.value ] else []) ++
     ((if ¬ specCatalogKey pl it.product_name.value then
        [ ( r"price for ").toList ++ fStr it.product_name.value ] else []) ++ acc)) [])

/-! Theorems.  First, characterisations of the dict model. -/

theorem dictLookup_map_update_ne (d : List (Str × α)) (k : Str) (v : α) (a : Str)
    (hne : a ≠ k) :
    dictLookup (d.map (fun p => if p.1 = k then (k, v) else p)) a = dictLookup d a := by
  induction d with
  | nil => rfl
  | cons p rest ih =>
    by_cases hp : p.1 = k
    · have hk : ¬ (k = a) := fun h => hne h.symm
      have hpa : ¬ (p.1 = a) := fun h => hne (hp ▸ h).symm
      simp [dictLookup, hp, hk, hpa, ih]
    · by_cases hpa : p.1 = a
      · have hak : ¬ (a = k) := fun h => hp (hpa.symm ▸ h)
        simp [dictLookup, hp, hpa, hak]
      · simp [dictLookup, hp, hpa, ih]

theorem dictLookup_map_update_eq (d : List (Str × α)) (k : Str) (v : α)
    (h : d.any (fun p => decide (p.1 = k)) = true) :
    dictLookup (d.map (fun p => if p.1 = k then (k, v) else p)) k = some v := by
  induction d with
  | nil => simp at h
  | cons p rest ih =>
    by_cases hp : p.1 = k
    · simp [dictLookup, hp]
    · have h' : rest.any (fun p => decide (p.1 = k)) = true := by
        simp only [List.any_cons, Bool.or_eq_true, decide_eq_true_eq] at h
        rcases h with h | h
        · exact absurd h hp
        · exact h
      simp [dictLookup, hp, ih h']

theorem dictLookup_eq_none_of_any_false (d : List (Str × α)) (k : Str)
    (h : d.any (fun p => decide (p.1 = k)) = false) :
    dictLookup d k = none := by
  induction d with
  | nil => rfl
  | cons p rest ih =>
    simp only [List.any_cons, Bool.or_eq_false_iff, decide_eq_false_iff_not] at h
    simp [dictLookup, h.1, ih (by simp [h.2])]

theorem dictLookup_append_single (d : List (Str × α)) (k : Str) (v : α) (a : Str) :
    dictLookup (d ++ [(k, v)]) a =
      (dictLookup d a).or (if k = a then some v else none) := by
  induction d with
  | nil => simp [dictLookup]
  | cons p rest ih =>
    by_cases hp : p.1 = a
    · simp [dictLookup, hp]
    · simp [dictLookup, hp, ih]

theorem dictLookup_insert (d : List (Str × α)) (k : Str) (v : α) (a : Str) :
    dictLookup (dictInsert d k v) a = if a = k then some v else dictLookup d a := by
  unfold dictInsert
  by_cases h : d.any (fun p => decide (p.1 = k)) = true
  · rw [if_pos h]
    by_cases ha : a = k
    · subst ha
      rw [dictLookup_map_update_eq d a v h, if_pos rfl]
    · rw [dictLookup_map_update_ne d k v a ha, if_neg ha]
  · rw [if_neg h, dictLookup_append_single]
    have hnone : dictLookup d k = none :=
      dictLookup_eq_none_of_any_false d k (Bool.eq_false_iff.mpr h)
    by_cases ha : a = k
    · subst ha
      simp [hnone]
    · have hk : ¬ (k = a) := fun hh => ha hh.symm
      cases hd : dictLookup d a <;> simp [hk, ha, hd]

/-! C1: alias-map registration order. -/

theorem buildProductNames_concat (names : List Str) (n : Str) :
    buildProductNames (names ++ [n]) =
      (if !endsInS (lowerStr n) then
        dictInsert (dictInsert (buildProductNames names) (lowerStr n) n)
          (lowerStr n ++ [ 's' ]) n
      else dictInsert (buildProductNames names) (lowerStr n) n) := by
  simp [buildProductNames, List.foldl_append]

/-- C1, counterexample.  The claim says the vocabulary indexer never
overwrites an alias that already points to a different canonical name
(first registration wins).  With the catalog [Widget, Widgets], the alias
"widgets" is first registered by "Widget" (naive pluralization), but the
final map sends it to "Widgets": the later registration overwrote it. -/
theorem C1_counterexample :
    dictLookup (buildProductNames [ ( r"Widget").toList, ( r"Widgets").toList ])
        (( r"widgets").toList) = some (( r"Widgets").toList) ∧
      firstWins [ ( r"Widget").toList, ( r"Widgets").toList ] (( r"widgets").toList) =
        some (( r"Widget").toList) ∧
      ( r"Widgets").toList ≠ ( r"Widget").toList := by
  refine ⟨by decide, by decide, by decide⟩

/-- C1, amended: for every catalog, the alias map resolves each alias to
the canonical name registered LAST among those whose lower-cased form or
naive plural produces that alias (a plain dict assignment overwrites). -/
theorem C1_theorem (names : List Str) (al : Str) :
    dictLookup (buildProductNames names) al = lastWins names al := by
  induction names using List.reverseRecOn with
  | nil => rfl
  | append_singleton ns n ih =>
    rw [buildProductNames_concat]
    unfold lastWins
    rw [List.reverse_append]
    simp only [List.reverse_singleton, List.singleton_append, List.find?, List.nil_append]
    by_cases hE : endsInS (lowerStr n)
    · rw [if_neg (by simp [hE])]
      rw [dictLookup_insert]
      by_cases ha : al = lowerStr n
      · have hr : registersAlias n al = true := by
          simp [registersAlias, ha]
        rw [hr, if_pos ha]
      · have hne : ¬ (lowerStr n = al) := fun h => ha h.symm
        have hr : registersAlias n al = false := by
          simp [registersAlias, hE, hne]
        rw [hr, if_neg ha, ih]
        rfl
    · rw [if_pos (by simp [hE])]
      rw [dictLookup_insert, dictLookup_insert]
      by_cases h1 : al = lowerStr n ++ [ 's' ]
      · have hr : registersAlias n al = true := by
          simp [registersAlias, hE, h1.symm]
        rw [hr, if_pos h1]
      · by_cases h2 : al = lowerStr n
        · have hr : registersAlias n al = true := by
            simp [registersAlias, h2]
          rw [hr, if_neg h1, if_pos h2]
        · have hne : ¬ (lowerStr n = al) := fun h => h2 h.symm
          have hne1 : ¬ (lowerStr n ++ [ 's' ] = al) := fun h => h1 h.symm
          have hr : registersAlias n al = false := by
            simp [registersAlias, hE, hne, hne1]
          rw [hr, if_neg h1, if_neg h2, ih]
          rfl

/-! C2: header extraction. -/

theorem extractHeaderFields_concat (ls : List Str) (l : Str) :
    extractHeaderFields (ls ++ [l]) = headerStep (extractHeaderFields ls) l := by
  simp [extractHeaderFields, List.foldl_append]

theorem from_not_subject (l : Str) (h : isFromLine l = true) : isSubjectLine l = false := by
  by_contra hcon
  rw [Bool.not_eq_false] at hcon
  cases hl : lowerStr l with
  | nil =>
    unfold isFromLine at h
    rw [hl] at h
    exact absurd h (by decide)
  | cons c cs =>
    unfold isFromLine at h
    unfold isSubjectLine at hcon
    rw [hl] at h hcon
    have h1 : (('f' == c) && List.isPrefixOf (( r"rom:").toList) cs) = true := h
    have h2 : (('s' == c) && List.isPrefixOf (( r"ubject:").toList) cs) = true := hcon
    simp only [Bool.and_eq_true, beq_iff_eq] at h1 h2
    exact absurd (h1.1.trans h2.1.symm) (by decide)

/-- C2, counterexample.  The claim says the header splitter takes the value
from the first From: line and later duplicates change nothing; with two
From: lines the extracted sender is the second line's value. -/
theorem C2_counterexample :
    (extractHeaderFields
        [ ( r"From: a@x.com").toList, ( r"From: b@y.com").toList ]).1.value =
      some (( r"b@y.com").toList) ∧
      ( r"b@y.com").toList ≠ ( r"a@x.com").toList := by
  refine ⟨by decide, by decide⟩

/-- C2, amended: for every header-line list, each extracted field (value,
confidence and note together) comes from the LAST line with the matching
prefix; every later duplicate line overwrites the earlier ones. -/
theorem C2_theorem (lines : List Str) :
    extractHeaderFields lines =
      (lastHeaderField isFromLine (( r"missing sender").toList) lines,
       lastHeaderField isSubjectLine (( r"missing subject").toList) lines) := by
  induction lines using List.reverseRecOn with
  | nil => rfl
  | append_singleton ls l ih =>
    rw [extractHeaderFields_concat, ih]
    unfold lastHeaderField headerStep
    rw [List.reverse_append]
    simp only [List.reverse_singleton, List.singleton_append, List.find?, List.nil_append]
    by_cases hf : isFromLine l = true
    · have hs := from_not_subject l hf
      rw [hf, hs]
      simp
    · rw [Bool.eq_false_iff.mpr hf]
      by_cases hs : isSubjectLine l = true
      · rw [hs]
        simp [hf]
      · rw [Bool.eq_false_iff.mpr hs]
        simp [hf, hs]

/-! C6: currency detection. -/

/-- C6, counterexample.  The claim says the fallback value is the
configuration's default_currency; the code reads the config key
'currency', so a config where the two differ refutes it. -/
theorem C6_counterexample :
    (currencyField ⟨some (( r"JPY").toList), some (( r"EUR").toList), none⟩
        (lowerStr (( r"please quote").toList))).value = some (( r"JPY").toList) ∧
      (⟨some (( r"JPY").toList), some (( r"EUR").toList), none⟩ : Config).default_currency =
        some (( r"EUR").toList) ∧
      some (( r"JPY").toList) ≠ some (( r"EUR").toList) := by
  refine ⟨by decide, rfl, by decide⟩

/-- C6, amended: the three-way priority rule as claimed (USD before INR
before the default, short-circuited), except that the fallback is the
configuration's 'currency' entry rather than its 'default_currency'. -/
theorem C6_theorem (cfg : Config) (body : Str) :
    ((containsSub (lowerStr body) (( r"usd").toList) = true ∨
        containsSub (lowerStr body) [ '$' ] = true) →
      currencyField cfg (lowerStr body) =
        { value := some (( r"USD").toList), confidence := (8 : ℚ)/10, notes := [] }) ∧
    (containsSub (lowerStr body) (( r"usd").toList) = false →
      containsSub (lowerStr body) [ '$' ] = false →
      (containsSub (lowerStr body) (( r"inr").toList) = true ∨
        containsSub (lowerStr body) [ '₹' ] = true ∨
        containsSub (lowerStr body) (( r"rupees").toList) = true) →
      currencyField cfg (lowerStr body) =
        { value := some (( r"INR").toList), confidence := (8 : ℚ)/10, notes := [] }) ∧
    (containsSub (lowerStr body) (( r"usd").toList) = false →
      containsSub (lowerStr body) [ '$' ] = false →
      containsSub (lowerStr body) (( r"inr").toList) = false →
      containsSub (lowerStr body) [ '₹' ] = false →
      containsSub (lowerStr body) (( r"rupees").toList) = false →
      currencyField cfg (lowerStr body) =
        { value := cfg.currency, confidence := (1 : ℚ)/2,
          notes := ( r"default currency assumed").toList }) := by
  refine ⟨?_, ?_, ?_⟩
  · rintro (h | h) <;> (unfold currencyField; rw [h]; simp)
  · rintro h1 h2 (h | h | h) <;> (unfold currencyField; rw [h1, h2, h]; simp)
  · intro h1 h2 h3 h4 h5
    unfold currencyField
    rw [h1, h2, h3, h4, h5]
    simp

theorem C6_witness :
    currencyField ⟨some (( r"EUR").toList), none, none⟩
        (lowerStr (( r"price in usd and rupees").toList)) =
      { value := some (( r"USD").toList), confidence := (8 : ℚ)/10, notes := [] } ∧
    currencyField ⟨some (( r"EUR").toList), none, none⟩
        (lowerStr (( r"price in rupees").toList)) =
      { value := some (( r"INR").toList), confidence := (8 : ℚ)/10, notes := [] } ∧
    currencyField ⟨some (( r"EUR").toList), none, none⟩
        (lowerStr (( r"price please").toList)) =
      { value := some (( r"EUR").toList), confidence := (1 : ℚ)/2,
        notes := ( r"default currency assumed").toList } :=
  ⟨(C6_theorem _ _).1 (Or.inl (by decide)),
   (C6_theorem _ _).2.1 (by decide) (by decide) (Or.inr (Or.inr (by decide))),
   (C6_theorem _ _).2.2 (by decide) (by decide) (by decide) (by decide) (by decide)⟩

/-! C9: email_id. -/

theorem toHex8_length (w : Nat) : (toHex8 w).length = 8 := by
  simp [toHex8]

theorem sha256Hex_length (msg : List Nat) : (sha256Hex msg).length = 64 := by
  rcases hW : sha256Words msg with ⟨a, b, c, d, e, f, g, h⟩
  simp [sha256Hex, hW, toHex8_length]

theorem hexDigitChar_mem (n : Nat) : hexDigitChar n ∈ hexAlphabet := by
  unfold hexDigitChar
  rcases h : hexAlphabet[n]? with _ | c
  · simp only [List.getD_eq_getElem?_getD, h, Option.getD_none]
    decide
  · simp only [List.getD_eq_getElem?_getD, h, Option.getD_some]
    exact List.getElem?_mem h

theorem toHex8_mem (w : Nat) (c : Char) (h : c ∈ toHex8 w) : c ∈ hexAlphabet := by
  simp only [toHex8, List.mem_map] at h
  obtain ⟨i, _, rfl⟩ := h
  exact hexDigitChar_mem _

theorem sha256Hex_mem (msg : List Nat) (c : Char) (h : c ∈ sha256Hex msg) :
    c ∈ hexAlphabet := by
  rcases hW : sha256Words msg with ⟨a, b, cc, d, e, f, g, hh⟩
  rw [sha256Hex, hW] at h
  simp only [List.mem_append] at h
  rcases h with ((((((h | h) | h) | h) | h) | h) | h) | h <;> exact toHex8_mem _ _ h

theorem emailId_length (t : Str) : (emailId t).length = 16 := by
  unfold emailId
  rw [List.length_take, sha256Hex_length]
  decide

theorem emailId_hex (t : Str) (c : Char) (h : c ∈ emailId t) : c ∈ hexAlphabet := by
  unfold emailId at h
  exact sha256Hex_mem _ _ (List.take_subset _ _ h)

/-- C9: email_id is a pure function of the exact text (identical texts
give identical ids, whatever the catalog and config), it is the
content-hash prefix emailId, and it always consists of 16 characters from
the lower-case hexadecimal alphabet. -/
theorem C9_theorem :
    (∀ (pl pl2 : PriceList) (cfg cfg2 : Config) (t t2 : Str), t = t2 →
        (parse pl cfg t).email_id = (parse pl2 cfg2 t2).email_id) ∧
    (∀ (pl : PriceList) (cfg : Config) (t : Str),
        (parse pl cfg t).email_id = emailId t ∧
        (parse pl cfg t).email_id.length = 16 ∧
        ∀ c ∈ (parse pl cfg t).email_id, c ∈ hexAlphabet) := by
  constructor
  · intro pl pl2 cfg cfg2 t t2 ht
    subst ht
    rfl
  · intro pl cfg t
    exact ⟨rfl, emailId_length t, fun c hc => emailId_hex t c hc⟩

/-! C3: bare-mention suppression. -/

theorem bareKept_eq_filter_not_contained (body key : Str) :
    bareKept body key =
      (bareFinditer body key).filter (fun b =>
        decide (¬ ∃ q ∈ qtyFinditer body key, q.1 ≤ b.1 ∧ b.2 ≤ q.2.1)) := by
  unfold bareKept
  refine List.filter_congr ?_
  intro b _
  by_cases hex : ∃ q ∈ qtyFinditer body key, q.1 ≤ b.1 ∧ b.2 ≤ q.2.1
  · have hany : (qtyFinditer body key).any
        (fun q => decide (q.1 ≤ b.1) && decide (b.2 ≤ q.2.1)) = true := by
      rw [List.any_eq_true]
      obtain ⟨q, hq, h1, h2⟩ := hex
      exact ⟨q, hq, by simp [h1, h2]⟩
    simp [hany, hex]
  · have hany : (qtyFinditer body key).any
        (fun q => decide (q.1 ≤ b.1) && decide (b.2 ≤ q.2.1)) = false := by
      apply Bool.eq_false_iff.mpr
      intro hcon
      rw [List.any_eq_true] at hcon
      obtain ⟨q, hq, hpq⟩ := hcon
      simp only [Bool.and_eq_true, decide_eq_true_eq] at hpq
      exact hex ⟨q, hq, hpq.1, hpq.2⟩
    simp [hany, hex]

/-- C3: for one alias, the emitted mentions are all quantity matches
(conf 0.9) followed by one bare mention (canonical, none, 0.6, '') for
exactly those bare matches whose span is NOT fully contained in the span
of some quantity match of the same alias; in particular a bare occurrence
not covered by any quantity match still yields its bare mention. -/
theorem C3_theorem (body key canonical : Str) :
    (mentionsForAlias body key canonical =
      ((qtyFinditer body key).map (fun q => mkQtyMention canonical q.2.2)) ++
        (((bareFinditer body key).filter (fun b =>
            decide (¬ ∃ q ∈ qtyFinditer body key, q.1 ≤ b.1 ∧ b.2 ≤ q.2.1))).map (fun _ =>
          ({ name := canonical, qty := none, conf := (6 : ℚ)/10, note := [] } : Mention)))) ∧
    (∀ b ∈ bareFinditer body key,
      (¬ ∃ q ∈ qtyFinditer body key, q.1 ≤ b.1 ∧ b.2 ≤ q.2.1) →
      ({ name := canonical, qty := none, conf := (6 : ℚ)/10, note := [] } : Mention) ∈
        mentionsForAlias body key canonical) := by
  constructor
  · unfold mentionsForAlias
    rw [bareKept_eq_filter_not_contained]
  · intro b hb hnot
    unfold mentionsForAlias
    rw [List.mem_append]
    right
    refine List.mem_map.mpr ⟨b, ?_, rfl⟩
    rw [bareKept_eq_filter_not_contained, List.mem_filter]
    exact ⟨hb, decide_eq_true hnot⟩

theorem C3_witness :
    ({ name := ( r"Widget").toList, qty := none, conf := (6 : ℚ)/10,
        note := [] } : Mention) ∈
      mentionsForAlias (( r"2 widgets and widgets").toList) (( r"widgets").toList)
        (( r"Widget").toList) :=
  (C3_theorem _ _ _).2 (14, 21) (by decide) (by decide)

/-! C8: missing-field analyzer. -/

theorem falsyStrOpt_iff (v : Option Str) : falsyStrOpt v = true ↔ specAbsent v := by
  cases v with
  | none => simp [falsyStrOpt, specAbsent]
  | some s => simp [falsyStrOpt, specAbsent, List.isEmpty_iff]

theorem dictLookup_isSome_iff (d : List (Str × α)) (k : Str) :
    (dictLookup d k).isSome = true ↔ ∃ p ∈ d, k = p.1 := by
  induction d with
  | nil =>
    constructor
    · intro h
      simp [dictLookup] at h
    · rintro ⟨p, hp, _⟩
      exact absurd hp (List.not_mem_nil p)
  | cons p rest ih =>
    by_cases hp : p.1 = k
    · simp only [dictLookup, if_pos hp, Option.isSome_some, true_iff]
      exact ⟨p, List.mem_cons_self _ _, hp.symm⟩
    · rw [show dictLookup (p :: rest) k = dictLookup rest k by
        simp [dictLookup, hp]]
      rw [ih]
      constructor
      · rintro ⟨q, hq, hkq⟩
        exact ⟨q, List.mem_cons_of_mem _ hq, hkq⟩
      · rintro ⟨q, hq, hkq⟩
        rcases List.mem_cons.mp hq with rfl | hq'
        · exact absurd hkq (fun h => hp h.symm)
        · exact ⟨q, hq', hkq⟩

theorem valueHasKey_iff (pl : PriceList) (v : Option Str) :
    valueHasKey pl v = true ↔ specCatalogKey pl v := by
  cases v with
  | none => simp [valueHasKey, specCatalogKey]
  | some s =>
    simp [valueHasKey, specCatalogKey, dictHasKey, dictLookup_isSome_iff]

theorem missingItems_eq (pl : PriceList) (items : List Item) :
    items.flatMap (fun it =>
      (if it.quantity.value.isNone then
        [ ( r"quantity for ").toList ++ fStr it.product_name.value ] else []) ++
      (if !valueHasKey pl it.product_name.value then
        [ ( r"price for ").toList ++ fStr it.product_name.value ] else [])) =
    items.foldr (fun it acc =>
      (if it.quantity.value = none then
        [ ( r"quantity for ").toList ++ fStr it.product_name.value ] else []) ++
      ((if ¬ specCatalogKey pl it.product_name.value then
        [ ( r"price for ").toList ++ fStr it.product_name.value ] else []) ++ acc)) [] := by
  induction items with
  | nil => rfl
  | cons it rest ih =>
    rw [List.flatMap_cons, ih, List.foldr_cons, List.append_assoc]
    congr 1
    · by_cases h : it.quantity.value = none
      · rw [if_pos (Option.isNone_iff_eq_none.mpr h), if_pos h]
      · rw [if_neg (fun hb => h (Option.isNone_iff_eq_none.mp hb)), if_neg h]
    · congr 1
      by_cases h : specCatalogKey pl it.product_name.value
      · have hv : valueHasKey pl it.product_name.value = true := (valueHasKey_iff _ _).mpr h
        rw [hv]
        simp [h]
      · have hv : valueHasKey pl it.product_name.value = false :=
          Bool.eq_false_iff.mpr (fun hb => h ((valueHasKey_iff _ _).mp hb))
        rw [hv]
        simp [h]

/-- C8: the missing-field list is built exactly in the claimed order:
"from" when the sender value is absent, then "subject", then either
"items" (empty list) or, per item in list order, the quantity entry
followed by the price entry, with no deduplication; this holds both for
the analyzer on arbitrary fields and for every parse Event. -/
theorem C8_theorem :
    (∀ (pl : PriceList) (fromF subjF : Field Str) (items : List Item),
      missingFields pl fromF subjF items = missingFieldsSpec pl fromF subjF items) ∧
    (∀ (pl : PriceList) (cfg : Config) (text : Str),
      (parse pl cfg text).missing_fields =
        missingFieldsSpec pl (parse pl cfg text).fromField (parse pl cfg text).subject
          (parse pl cfg text).items) := by
  have main : ∀ (pl : PriceList) (fromF subjF : Field Str) (items : List Item),
      missingFields pl fromF subjF items = missingFieldsSpec pl fromF subjF items := by
    intro pl fromF subjF items
    unfold missingFields missingFieldsSpec
    have h1 : (if falsyStrOpt fromF.value then [ ( r"from").toList ] else []) =
        (if specAbsent fromF.value then [ ( r"from").toList ] else []) := by
      by_cases h : specAbsent fromF.value
      · rw [if_pos ((falsyStrOpt_iff _).mpr h), if_pos h]
      · rw [if_neg (fun hb => h ((falsyStrOpt_iff _).mp hb)), if_neg h]
    have h2 : (if falsyStrOpt subjF.value then [ ( r"subject").toList ] else []) =
        (if specAbsent subjF.value then [ ( r"subject").toList ] else []) := by
      by_cases h : specAbsent subjF.value
      · rw [if_pos ((falsyStrOpt_iff _).mpr h), if_pos h]
      · rw [if_neg (fun hb => h ((falsyStrOpt_iff _).mp hb)), if_neg h]
    have h3 : (if items.isEmpty then [ ( r"items").toList ]
        else items.flatMap (fun it =>
          (if it.quantity.value.isNone then
            [ ( r"quantity for ").toList ++ fStr it.product_name.value ] else []) ++
          (if !valueHasKey pl it.product_name.value then
            [ ( r"price for ").toList ++ fStr it.product_name.value ] else []))) =
        (if items = [] then [ ( r"items").toList ]
        else items.foldr (fun it acc =>
          (if it.quantity.value = none then
            [ ( r"quantity for ").toList ++ fStr it.product_name.value ] else []) ++
          ((if ¬ specCatalogKey pl it.product_name.value then
            [ ( r"price for ").toList ++ fStr it.product_name.value ] else []) ++ acc)) []) := by
      by_cases hi : items = []
      · rw [if_pos (List.isEmpty_iff.mpr hi), if_pos hi]
      · rw [if_neg (fun hb => hi (List.isEmpty_iff.mp hb)), if_neg hi]
        exact missingItems_eq pl items
    rw [h1, h2, h3]
  exact ⟨main, fun pl cfg text => main pl _ _ _⟩

/-! C5: conjunction-heuristic candidates and dedup. -/

theorem contains_iff_mem (l : List Str) (a : Str) : l.contains a = true ↔ a ∈ l := by
  simp [List.contains_iff_exists_mem_beq]

theorem dedupFirstAux_filter_length (c : Str) :
    ∀ (l seen : List Str),
      ((dedupFirstAux seen l).filter (fun n => decide (n = c))).length =
        if c ∈ l ∧ ¬ c ∈ seen then 1 else 0 := by
  intro l
  induction l with
  | nil => intro seen; simp [dedupFirstAux]
  | cons a rest ih =>
    intro seen
    by_cases ha : seen.contains a = true
    · have hmem : a ∈ seen := (contains_iff_mem _ _).mp ha
      rw [show dedupFirstAux seen (a :: rest) = dedupFirstAux seen rest by
        simp [dedupFirstAux, hmem]]
      rw [ih seen]
      by_cases hca : c = a
      · subst hca
        simp [hmem]
      · simp [List.mem_cons, hca]
    · have hmem : ¬ a ∈ seen := fun hm => ha ((contains_iff_mem _ _).mpr hm)
      rw [show dedupFirstAux seen (a :: rest) = a :: dedupFirstAux (a :: seen) rest by
        simp [dedupFirstAux, hmem]]
      by_cases hca : a = c
      · subst hca
        rw [show (a :: dedupFirstAux (a :: seen) rest).filter (fun n => decide (n = a)) =
            a :: (dedupFirstAux (a :: seen) rest).filter (fun n => decide (n = a)) by
          simp [List.filter_cons]]
        rw [List.length_cons, ih (a :: seen)]
        simp [hmem]
      · rw [show (a :: dedupFirstAux (a :: seen) rest).filter (fun n => decide (n = c)) =
            (dedupFirstAux (a :: seen) rest).filter (fun n => decide (n = c)) by
          simp [List.filter_cons, hca]]
        rw [ih (a :: seen)]
        have hcc : ¬ c = a := fun h => hca h.symm
        simp [List.mem_cons, hcc]

theorem dedupFirst_filter_length (l : List Str) (c : Str) :
    ((dedupFirst l).filter (fun n => decide (n = c))).length = if c ∈ l then 1 else 0 := by
  rw [dedupFirst, dedupFirstAux_filter_length]
  simp

theorem dedupFirstAux_subset :
    ∀ (l seen : List Str) (c : Str), c ∈ dedupFirstAux seen l → c ∈ l := by
  intro l
  induction l with
  | nil => intro seen c h; simp [dedupFirstAux] at h
  | cons a rest ih =>
    intro seen c h
    by_cases ha : seen.contains a = true
    · have hmem : a ∈ seen := (contains_iff_mem _ _).mp ha
      rw [show dedupFirstAux seen (a :: rest) = dedupFirstAux seen rest by
        simp [dedupFirstAux, hmem]] at h
      exact List.mem_cons_of_mem _ (ih seen c h)
    · have hmem : ¬ a ∈ seen := fun hm => ha ((contains_iff_mem _ _).mpr hm)
      rw [show dedupFirstAux seen (a :: rest) = a :: dedupFirstAux (a :: seen) rest by
        simp [dedupFirstAux, hmem]] at h
      rcases List.mem_cons.mp h with h | h
      · exact h ▸ List.mem_cons_self _ _
      · exact List.mem_cons_of_mem _ (ih (a :: seen) c h)

/-- C5: a conjunction match with exactly one known word whose unknown word
passes the filters records the unknown word title-cased; and after
first-seen-order dedup each surviving candidate yields exactly one
mention, whose shape is (candidate, none, 0.2, 'unknown product'). -/
theorem C5_theorem :
    (∀ (pn : List (Str × Str)) (body : Str) (st en : Nat) (w1 w2 : Str),
      (st, en, (w1, w2)) ∈ conjFinditer body →
      ∀ known unknown : Str,
        ((known, unknown) = (w1, w2) ∨ (known, unknown) = (w2, w1)) →
        dictHasKey pn (lowerStr known) = true →
        dictHasKey pn (lowerStr unknown) = false →
        stopwords.contains (lowerStr unknown) = false →
        endsInS (lowerStr unknown) = true →
        pyTitle unknown ∈ conjCandidates pn body) ∧
    (∀ (cands : List Str) (c : Str),
        ((unknownMentions cands).filter (fun m => decide (m.name = c))).length =
          if c ∈ cands then 1 else 0) ∧
    (∀ (cands : List Str), ∀ m ∈ unknownMentions cands,
        m.qty = none ∧ m.conf = (2 : ℚ)/10 ∧
          m.note = ( r"unknown product").toList ∧ m.name ∈ cands) := by
  refine ⟨?_, ?_, ?_⟩
  · intro pn body st en w1 w2 hmem known unknown hcase hk hu hsw hes
    unfold conjCandidates
    rw [List.mem_flatMap]
    refine ⟨(st, en, (w1, w2)), hmem, ?_⟩
    have hswm : ¬ lowerStr unknown ∈ stopwords :=
      fun hm => by rw [(contains_iff_mem _ _).mpr hm] at hsw; exact absurd hsw (by decide)
    rcases hcase with h | h
    · injection h with hk1 hk2
      subst hk1
      subst hk2
      simp [hk, hu, hswm, hes]
    · injection h with hk1 hk2
      subst hk1
      subst hk2
      simp [hk, hu, hswm, hes]
  · intro cands c
    have hun : unknownMentions cands = (dedupFirst cands).map
        (fun n : Str => Mention.mk n none ((2 : ℚ)/10) (( r"unknown product").toList)) := rfl
    rw [hun, List.filter_map, List.length_map]
    have hcomp : ((fun m : Mention => decide (m.name = c)) ∘
        (fun n : Str => Mention.mk n none ((2 : ℚ)/10) (( r"unknown product").toList))) =
        (fun n : Str => decide (n = c)) := rfl
    rw [hcomp]
    exact dedupFirst_filter_length cands c
  · intro cands m hm
    unfold unknownMentions at hm
    obtain ⟨n, hn, rfl⟩ := List.mem_map.mp hm
    exact ⟨rfl, rfl, rfl, dedupFirstAux_subset cands [] n hn⟩

theorem C5_witness :
    ( r"Thingamajigs").toList ∈
      conjCandidates (buildProductNames [ ( r"Widget").toList ])
        (( r"Widgets and Thingamajigs").toList) ∧
    ((unknownMentions [ ( r"Thingamajigs").toList, ( r"Gadgets").toList,
        ( r"Thingamajigs").toList ]).filter
      (fun m => decide (m.name = ( r"Thingamajigs").toList))).length = 1 := by
  constructor
  · exact (C5_theorem).1 (buildProductNames [ ( r"Widget").toList ])
      (( r"Widgets and Thingamajigs").toList) 0 24
      (( r"Widgets").toList) (( r"Thingamajigs").toList) (by decide)
      (( r"Widgets").toList) (( r"Thingamajigs").toList) (Or.inl rfl)
      (by decide) (by decide) (by decide) (by decide)
  · rw [(C5_theorem).2.1]
    decide

/-! C4: the consolidator merge rules. -/

theorem dictLookup_map_modify_ne (d : List (Str × α)) (k : Str) (f : α → α) (a : Str)
    (hne : a ≠ k) :
    dictLookup (d.map (fun p => if p.1 = k then (p.1, f p.2) else p)) a = dictLookup d a := by
  induction d with
  | nil => rfl
  | cons p rest ih =>
    by_cases hp : p.1 = k
    · have hka : ¬ (k = a) := fun h => hne h.symm
      simp [dictLookup, hp, hka, ih]
    · by_cases hpa : p.1 = a
      · simp [dictLookup, hp, hpa, hne]
      · simp [dictLookup, hp, hpa, ih]

theorem dictLookup_map_modify_eq (d : List (Str × α)) (k : Str) (f : α → α) (it : α)
    (h : dictLookup d k = some it) :
    dictLookup (d.map (fun p => if p.1 = k then (p.1, f p.2) else p)) k = some (f it) := by
  induction d with
  | nil => simp [dictLookup] at h
  | cons p rest ih =>
    by_cases hp : p.1 = k
    · rw [show dictLookup (p :: rest) k = some p.2 by simp [dictLookup, hp]] at h
      injection h with h2
      subst h2
      simp [dictLookup, hp]
    · rw [show dictLookup (p :: rest) k = dictLookup rest k by simp [dictLookup, hp]] at h
      simp [dictLookup, hp, ih h]

theorem mergeItem_quantity_of_some (it : Item) (m : Mention) (v : Nat)
    (h : it.quantity.value = some v) : (mergeItem it m).quantity = it.quantity := by
  unfold mergeItem
  simp [h]

theorem mergeItem_quantity_adopt (it : Item) (m : Mention) (v : Nat)
    (h : it.quantity.value = none) (hm : m.qty = some v) :
    (mergeItem it m).quantity =
      { value := some v, confidence := m.conf, notes := ([] : Str) } := by
  unfold mergeItem
  simp [h, hm]

theorem mergeItem_product_value (it : Item) (m : Mention) :
    (mergeItem it m).product_name.value = it.product_name.value := by
  unfold mergeItem
  by_cases h : (it.quantity.value.isNone && m.qty.isSome) = true <;> simp [h]

theorem mergeItem_conf (it : Item) (m : Mention) :
    (mergeItem it m).product_name.confidence = max it.product_name.confidence m.conf := by
  unfold mergeItem
  by_cases h : (it.quantity.value.isNone && m.qty.isSome) = true <;> simp [h]

theorem consolidateStep_lookup_ne (pl : PriceList) (cfg : Config)
    (acc : List (Str × Item)) (m : Mention) (name : Str) (hne : name ≠ m.name) :
    dictLookup (consolidateStep pl cfg acc m) name = dictLookup acc name := by
  unfold consolidateStep
  cases hl : dictLookup acc m.name with
  | none =>
    rw [dictLookup_append_single]
    have hmn : ¬ (m.name = name) := fun h => hne h.symm
    cases hd : dictLookup acc name <;> simp [hmn, hd]
  | some it => exact dictLookup_map_modify_ne acc m.name (fun x => mergeItem x m) name hne

theorem consolidateStep_lookup_eq_none (pl : PriceList) (cfg : Config)
    (acc : List (Str × Item)) (m : Mention) (hl : dictLookup acc m.name = none) :
    dictLookup (consolidateStep pl cfg acc m) m.name = some (seedItem pl cfg m) := by
  unfold consolidateStep
  simp only [hl]
  rw [dictLookup_append_single, hl]
  simp

theorem consolidateStep_lookup_eq_some (pl : PriceList) (cfg : Config)
    (acc : List (Str × Item)) (m : Mention) (it : Item)
    (hl : dictLookup acc m.name = some it) :
    dictLookup (consolidateStep pl cfg acc m) m.name = some (mergeItem it m) := by
  unfold consolidateStep
  simp only [hl]
  exact dictLookup_map_modify_eq acc m.name (fun x => mergeItem x m) it hl

theorem consolidate_quantity_persists (pl : PriceList) (cfg : Config) :
    ∀ (ms2 : List Mention) (acc : List (Str × Item)) (name : Str) (v : Nat) (it : Item),
      dictLookup acc name = some it → it.quantity.value = some v →
      ∃ it', dictLookup (ms2.foldl (consolidateStep pl cfg) acc) name = some it' ∧
        it'.quantity.value = some v := by
  intro ms2
  induction ms2 with
  | nil =>
    intro acc name v it h hv
    exact ⟨it, h, hv⟩
  | cons m rest ih =>
    intro acc name v it h hv
    rw [List.foldl_cons]
    by_cases hn : name = m.name
    · subst hn
      have hstep := consolidateStep_lookup_eq_some pl cfg acc m it h
      refine ih _ _ _ (mergeItem it m) hstep ?_
      rw [mergeItem_quantity_of_some it m v hv]
      exact hv
    · refine ih _ _ _ it ?_ hv
      rw [consolidateStep_lookup_ne pl cfg acc m name hn]
      exact h

theorem consolidate_lookup_none (pl : PriceList) (cfg : Config) :
    ∀ (ms : List Mention) (acc : List (Str × Item)) (name : Str),
      dictLookup (ms.foldl (consolidateStep pl cfg) acc) name = none ↔
        (dictLookup acc name = none ∧ ∀ m ∈ ms, m.name ≠ name) := by
  intro ms
  induction ms with
  | nil =>
    intro acc name
    simp
  | cons m rest ih =>
    intro acc name
    rw [List.foldl_cons, ih]
    constructor
    · rintro ⟨h1, h2⟩
      by_cases hn : name = m.name
      · subst hn
        exfalso
        cases hl : dictLookup acc m.name with
        | none => rw [consolidateStep_lookup_eq_none pl cfg acc m hl] at h1; exact absurd h1 (by simp)
        | some it => rw [consolidateStep_lookup_eq_some pl cfg acc m it hl] at h1; exact absurd h1 (by simp)
      · rw [consolidateStep_lookup_ne pl cfg acc m name hn] at h1
        refine ⟨h1, fun m' hm' => ?_⟩
        rcases List.mem_cons.mp hm' with rfl | hmem
        · exact fun hh => hn hh.symm
        · exact h2 m' hmem
    · rintro ⟨h1, h2⟩
      have hmn : m.name ≠ name := h2 m (List.mem_cons_self _ _)
      refine ⟨?_, fun m' hm' => h2 m' (List.mem_cons_of_mem _ hm')⟩
      rw [consolidateStep_lookup_ne pl cfg acc m name (fun h => hmn h.symm)]
      exact h1

theorem consolidate_conf_max (pl : PriceList) (cfg : Config) :
    ∀ (ms : List Mention) (name : Str) (it : Item),
      dictLookup (consolidate pl cfg ms) name = some it →
      it.product_name.confidence ∈
        (ms.filter (fun m => decide (m.name = name))).map Mention.conf ∧
      ∀ c ∈ (ms.filter (fun m => decide (m.name = name))).map Mention.conf,
        c ≤ it.product_name.confidence := by
  intro ms
  induction ms using List.reverseRecOn with
  | nil =>
    intro name it h
    exact absurd h (by simp [consolidate, dictLookup])
  | append_singleton ms m ih =>
    intro name it h
    have hsplit : consolidate pl cfg (ms ++ [m]) =
        consolidateStep pl cfg (consolidate pl cfg ms) m := by
      simp [consolidate, List.foldl_append]
    rw [hsplit] at h
    by_cases hn : name = m.name
    · subst hn
      cases hl : dictLookup (consolidate pl cfg ms) m.name with
      | none =>
        rw [consolidateStep_lookup_eq_none pl cfg _ m hl] at h
        injection h with h2
        subst h2
        have hnone : ∀ m' ∈ ms, m'.name ≠ m.name :=
          ((consolidate_lookup_none pl cfg ms [] m.name).mp hl).2
        have hfilter : ms.filter (fun m' => decide (m'.name = m.name)) = [] := by
          rw [List.filter_eq_nil_iff]
          intro m' hm'
          simp [hnone m' hm']
        rw [List.filter_append, hfilter]
        simp [seedItem]
      | some it0 =>
        rw [consolidateStep_lookup_eq_some pl cfg _ m it0 hl] at h
        injection h with h2
        subst h2
        obtain ⟨hmem, hbound⟩ := ih m.name it0 hl
        rw [List.filter_append, List.map_append]
        constructor
        · rw [mergeItem_conf]
          rcases max_choice it0.product_name.confidence m.conf with hmx | hmx
          · rw [hmx]
            exact List.mem_append_left _ hmem
          · rw [hmx]
            apply List.mem_append_right
            simp
        · intro c hc
          rw [mergeItem_conf]
          rcases List.mem_append.mp hc with hc | hc
          · exact le_trans (hbound c hc) (le_max_left _ _)
          · simp at hc
            rw [hc]
            exact le_max_right _ _
    · rw [consolidateStep_lookup_ne pl cfg _ m name hn] at h
      obtain ⟨hmem, hbound⟩ := ih name it h
      have hmn : ¬ (m.name = name) := fun hh => hn hh.symm
      have hfilter : (ms ++ [m]).filter (fun m' => decide (m'.name = name)) =
          ms.filter (fun m' => decide (m'.name = name)) := by
        rw [List.filter_append]
        simp [hmn]
      rw [hfilter]
      exact ⟨hmem, hbound⟩

/-- C4: consolidator merge rules.  (1) An Item whose quantity is set after
some prefix of the mention stream keeps exactly that quantity value through
all further mentions (an existing quantity is never overwritten).  (2) When
the Item's quantity is still unset and the next mention of that name
carries one, it is adopted together with its confidence and a cleared note.
(3) The Item's product-name confidence equals the maximum mention
confidence for that name: it is attained by some mention and bounds all of
them, so it never decreases across merges. -/
theorem C4_theorem :
    (∀ (pl : PriceList) (cfg : Config) (ms1 ms2 : List Mention) (name : Str)
        (v : Nat) (it : Item),
      dictLookup (consolidate pl cfg ms1) name = some it →
      it.quantity.value = some v →
      ∃ it', dictLookup (consolidate pl cfg (ms1 ++ ms2)) name = some it' ∧
        it'.quantity.value = some v) ∧
    (∀ (pl : PriceList) (cfg : Config) (ms : List Mention) (m : Mention)
        (it : Item) (v : Nat),
      dictLookup (consolidate pl cfg ms) m.name = some it →
      it.quantity.value = none → m.qty = some v →
      ∃ it', dictLookup (consolidate pl cfg (ms ++ [m])) m.name = some it' ∧
        it'.quantity = { value := some v, confidence := m.conf, notes := ([] : Str) }) ∧
    (∀ (pl : PriceList) (cfg : Config) (ms : List Mention) (name : Str) (it : Item),
      dictLookup (consolidate pl cfg ms) name = some it →
      it.product_name.confidence ∈
        (ms.filter (fun m => decide (m.name = name))).map Mention.conf ∧
      ∀ c ∈ (ms.filter (fun m => decide (m.name = name))).map Mention.conf,
        c ≤ it.product_name.confidence) := by
  refine ⟨?_, ?_, ?_⟩
  · intro pl cfg ms1 ms2 name v it h hv
    have hsplit : consolidate pl cfg (ms1 ++ ms2) =
        ms2.foldl (consolidateStep pl cfg) (consolidate pl cfg ms1) := by
      simp [consolidate, List.foldl_append]
    rw [hsplit]
    exact consolidate_quantity_persists pl cfg ms2 _ name v it h hv
  · intro pl cfg ms m it v h hq hm
    have hsplit : consolidate pl cfg (ms ++ [m]) =
        consolidateStep pl cfg (consolidate pl cfg ms) m := by
      simp [consolidate, List.foldl_append]
    rw [hsplit]
    refine ⟨mergeItem it m, consolidateStep_lookup_eq_some pl cfg _ m it h, ?_⟩
    exact mergeItem_quantity_adopt it m v hq hm
  · exact consolidate_conf_max

theorem C4_witness :
    (∃ it', dictLookup (consolidate [] ⟨none, none, none⟩
        ([ ⟨( r"Widget").toList, some 3, (9 : ℚ)/10, [] ⟩ ] ++
         [ ⟨( r"Widget").toList, some 5, (9 : ℚ)/10, [] ⟩ ])) (( r"Widget").toList) =
        some it' ∧ it'.quantity.value = some 3) ∧
    (∃ it', dictLookup (consolidate [] ⟨none, none, none⟩
        ([ ⟨( r"Widget").toList, none, (6 : ℚ)/10, [] ⟩ ] ++
         [ ⟨( r"Widget").toList, some 4, (9 : ℚ)/10, [] ⟩ ])) (( r"Widget").toList) =
        some it' ∧ it'.quantity = ⟨some 4, (9 : ℚ)/10, ([] : Str)⟩) ∧
    ((⟨⟨some (( r"Widget").toList), max ((6 : ℚ)/10) ((9 : ℚ)/10), []⟩,
        ⟨some 4, (9 : ℚ)/10, []⟩,
        ⟨none, (8 : ℚ)/10, []⟩⟩ : Item).product_name.confidence ∈
      (([ ⟨( r"Widget").toList, none, (6 : ℚ)/10, [] ⟩,
          ⟨( r"Widget").toList, some 4, (9 : ℚ)/10, [] ⟩ ] : List Mention).filter
        (fun m => decide (m.name = ( r"Widget").toList))).map Mention.conf) :=
  ⟨C4_theorem.1 [] ⟨none, none, none⟩ _ _ _ 3
      ⟨⟨some (( r"Widget").toList), (9 : ℚ)/10, []⟩, ⟨some 3, (9 : ℚ)/10, []⟩,
        ⟨none, (8 : ℚ)/10, []⟩⟩ rfl rfl,
   C4_theorem.2.1 [] ⟨none, none, none⟩ [ ⟨( r"Widget").toList, none, (6 : ℚ)/10, [] ⟩ ]
      ⟨( r"Widget").toList, some 4, (9 : ℚ)/10, [] ⟩
      ⟨⟨some (( r"Widget").toList), (6 : ℚ)/10, []⟩,
        ⟨none, 0, ( r"quantity missing").toList⟩, ⟨none, (8 : ℚ)/10, []⟩⟩ 4
      rfl rfl rfl,
   (C4_theorem.2.2 [] ⟨none, none, none⟩
      [ ⟨( r"Widget").toList, none, (6 : ℚ)/10, [] ⟩,
        ⟨( r"Widget").toList, some 4, (9 : ℚ)/10, [] ⟩ ] (( r"Widget").toList)
      ⟨⟨some (( r"Widget").toList), max ((6 : ℚ)/10) ((9 : ℚ)/10), []⟩,
        ⟨some 4, (9 : ℚ)/10, []⟩, ⟨none, (8 : ℚ)/10, []⟩⟩ rfl).1⟩

/-! C7: the quantity-confidence invariant. -/

theorem knownMentions_shape (pn : List (Str × Str)) (body : Str) (m : Mention)
    (hm : m ∈ knownMentions pn body) :
    m.conf = (9 : ℚ)/10 ∨ (m.conf = (6 : ℚ)/10 ∧ m.qty = none) := by
  unfold knownMentions at hm
  rw [List.mem_flatMap] at hm
  obtain ⟨kc, _, hm⟩ := hm
  split at hm
  · exact absurd hm (List.not_mem_nil m)
  · unfold mentionsForAlias at hm
    rcases List.mem_append.mp hm with hq | hb
    · obtain ⟨q, _, rfl⟩ := List.mem_map.mp hq
      exact Or.inl rfl
    · obtain ⟨b, _, rfl⟩ := List.mem_map.mp hb
      exact Or.inr ⟨rfl, rfl⟩

theorem unknownMentions_qty_none (cands : List Str) (m : Mention)
    (hm : m ∈ unknownMentions cands) : m.qty = none := by
  unfold unknownMentions at hm
  obtain ⟨n, _, rfl⟩ := List.mem_map.mp hm
  rfl

theorem mergeItem_qinv (it : Item) (m : Mention)
    (hit : it.quantity.confidence = 0 ↔ it.quantity.value = none)
    (hm : m.qty ≠ none → m.conf ≠ 0) :
    (mergeItem it m).quantity.confidence = 0 ↔ (mergeItem it m).quantity.value = none := by
  unfold mergeItem
  by_cases hc : (it.quantity.value.isNone && m.qty.isSome) = true
  · simp only [hc, if_pos]
    have hq : m.qty ≠ none := by
      rcases Bool.and_eq_true .. |>.mp hc with ⟨_, h2⟩
      exact Option.isSome_iff_ne_none.mp h2
    simp [hm hq, hq]
  · simp only [hc]
    simpa using hit

theorem seedItem_qinv (pl : PriceList) (cfg : Config) (m : Mention)
    (hm : m.qty ≠ none → m.conf ≠ 0) :
    (seedItem pl cfg m).quantity.confidence = 0 ↔
      (seedItem pl cfg m).quantity.value = none := by
  unfold seedItem
  cases hq : m.qty with
  | none => simp
  | some v => simp [hm (by simp [hq]), hq]

theorem consolidate_quantity_invariant (pl : PriceList) (cfg : Config) :
    ∀ (ms : List Mention) (acc : List (Str × Item)),
      (∀ m ∈ ms, m.qty ≠ none → m.conf ≠ 0) →
      (∀ p ∈ acc, (p.2.quantity.confidence = 0 ↔ p.2.quantity.value = none)) →
      ∀ p ∈ ms.foldl (consolidateStep pl cfg) acc,
        (p.2.quantity.confidence = 0 ↔ p.2.quantity.value = none) := by
  intro ms
  induction ms with
  | nil =>
    intro acc _ hacc p hp
    exact hacc p hp
  | cons m rest ih =>
    intro acc hms hacc p hp
    rw [List.foldl_cons] at hp
    refine ih _ (fun m' hm' => hms m' (List.mem_cons_of_mem _ hm')) ?_ p hp
    intro q hq
    unfold consolidateStep at hq
    cases hl : dictLookup acc m.name with
    | none =>
      simp only [hl] at hq
      rcases List.mem_append.mp hq with hq' | hq'
      · exact hacc q hq'
      · rw [List.mem_singleton.mp hq']
        exact seedItem_qinv pl cfg m (hms m (List.mem_cons_self _ _))
    | some it0 =>
      simp only [hl] at hq
      obtain ⟨p0, hp0, rfl⟩ := List.mem_map.mp hq
      by_cases hk : p0.1 = m.name
      · simp only [hk, if_pos]
        exact mergeItem_qinv p0.2 m (hacc p0 hp0) (hms m (List.mem_cons_self _ _))
      · simp only [hk, if_neg]
        exact hacc p0 hp0

/-- C7: in every Event produced by parse, an Item's quantity confidence is
0 exactly when its quantity value is absent, both at creation and after
every merge. -/
theorem C7_theorem (pl : PriceList) (cfg : Config) (text : Str) :
    ∀ it ∈ (parse pl cfg text).items,
      (it.quantity.confidence = 0 ↔ it.quantity.value = none) := by
  intro it hit
  obtain ⟨p, hp, rfl⟩ := List.mem_map.mp hit
  refine consolidate_quantity_invariant pl cfg _ [] ?_ (by simp) p hp
  intro m hm hq
  rcases List.mem_append.mp hm with hk | hu
  · rcases knownMentions_shape _ _ m hk with h9 | ⟨_, hn⟩
    · rw [h9]
      norm_num
    · exact absurd hn hq
  · exact absurd (unknownMentions_qty_none _ m hu) hq

theorem C7_witness :
    (⟨⟨some (( r"Widget").toList), (9 : ℚ)/10, []⟩, ⟨some 3, (9 : ℚ)/10, []⟩,
        ⟨some (( r"pcs").toList), (8 : ℚ)/10, []⟩⟩ : Item) ∈
      (parse [ (( r"Widget").toList, ⟨some (( r"pcs").toList)⟩) ] ⟨none, none, none⟩
        (( r"From: a").toList ++ [ '\n', '\n' ] ++ ( r"3 widgets").toList)).items ∧
    ((⟨⟨some (( r"Widget").toList), (9 : ℚ)/10, []⟩, ⟨some 3, (9 : ℚ)/10, []⟩,
        ⟨some (( r"pcs").toList), (8 : ℚ)/10, []⟩⟩ : Item).quantity.confidence = 0 ↔
      (⟨⟨some (( r"Widget").toList), (9 : ℚ)/10, []⟩, ⟨some 3, (9 : ℚ)/10, []⟩,
        ⟨some (( r"pcs").toList), (8 : ℚ)/10, []⟩⟩ : Item).quantity.value = none) := by
  have hm : (⟨⟨some (( r"Widget").toList), (9 : ℚ)/10, []⟩, ⟨some 3, (9 : ℚ)/10, []⟩,
      ⟨some (( r"pcs").toList), (8 : ℚ)/10, []⟩⟩ : Item) ∈
      (parse [ (( r"Widget").toList, ⟨some (( r"pcs").toList)⟩) ] ⟨none, none, none⟩
        (( r"From: a").toList ++ [ '\n', '\n' ] ++ ( r"3 widgets").toList)).items := by
    rw [show (parse [ (( r"Widget").toList, ⟨some (( r"pcs").toList)⟩) ] ⟨none, none, none⟩
        (( r"From: a").toList ++ [ '\n', '\n' ] ++ ( r"3 widgets").toList)).items =
      [ ⟨⟨some (( r"Widget").toList), (9 : ℚ)/10, []⟩, ⟨some 3, (9 : ℚ)/10, []⟩,
        ⟨some (( r"pcs").toList), (8 : ℚ)/10, []⟩⟩ ] from rfl]
    exact List.mem_singleton.mpr rfl
  exact ⟨hm, C7_theorem _ _ _ _ hm⟩

/-! C10: ordering of Items. -/

theorem consolidateStep_keys (pl : PriceList) (cfg : Config)
    (acc : List (Str × Item)) (m : Mention) :
    (consolidateStep pl cfg acc m).map Prod.fst =
      if dictLookup acc m.name = none then acc.map Prod.fst ++ [m.name]
      else acc.map Prod.fst := by
  unfold consolidateStep
  cases hl : dictLookup acc m.name with
  | none => simp [hl]
  | some it =>
    simp only [hl]
    rw [if_neg (by simp)]
    rw [List.map_map]
    apply List.map_congr_left
    intro p _
    by_cases hp : p.1 = m.name <;> simp [hp]

theorem dictLookup_none_iff_not_mem_keys (d : List (Str × α)) (k : Str) :
    dictLookup d k = none ↔ ¬ k ∈ d.map Prod.fst := by
  constructor
  · intro h hmem
    rw [List.mem_map] at hmem
    obtain ⟨p, hp, hk⟩ := hmem
    have hs := (dictLookup_isSome_iff d k).mpr ⟨p, hp, hk.symm⟩
    rw [h] at hs
    simp at hs
  · intro h
    cases hl : dictLookup d k with
    | none => rfl
    | some v =>
      exfalso
      obtain ⟨p, hp, hk⟩ := (dictLookup_isSome_iff d k).mp (by rw [hl]; rfl)
      exact h (List.mem_map.mpr ⟨p, hp, hk.symm⟩)

theorem dedupFirstAux_congr :
    ∀ (l s1 s2 : List Str), (∀ x, x ∈ s1 ↔ x ∈ s2) →
      dedupFirstAux s1 l = dedupFirstAux s2 l := by
  intro l
  induction l with
  | nil => intro s1 s2 _; rfl
  | cons c rest ih =>
    intro s1 s2 hequiv
    by_cases hc : c ∈ s1
    · have hc2 : c ∈ s2 := (hequiv c).mp hc
      rw [show dedupFirstAux s1 (c :: rest) = dedupFirstAux s1 rest by
        simp [dedupFirstAux, hc]]
      rw [show dedupFirstAux s2 (c :: rest) = dedupFirstAux s2 rest by
        simp [dedupFirstAux, hc2]]
      exact ih s1 s2 hequiv
    · have hc2 : ¬ c ∈ s2 := fun h => hc ((hequiv c).mpr h)
      rw [show dedupFirstAux s1 (c :: rest) = c :: dedupFirstAux (c :: s1) rest by
        simp [dedupFirstAux, hc]]
      rw [show dedupFirstAux s2 (c :: rest) = c :: dedupFirstAux (c :: s2) rest by
        simp [dedupFirstAux, hc2]]
      rw [ih (c :: s1) (c :: s2) (fun x => by simp [List.mem_cons, hequiv x])]

theorem consolidate_keys_aux (pl : PriceList) (cfg : Config) :
    ∀ (ms : List Mention) (acc : List (Str × Item)),
      (ms.foldl (consolidateStep pl cfg) acc).map Prod.fst =
        acc.map Prod.fst ++ dedupFirstAux (acc.map Prod.fst) (ms.map Mention.name) := by
  intro ms
  induction ms with
  | nil => intro acc; simp [dedupFirstAux]
  | cons m rest ih =>
    intro acc
    rw [List.foldl_cons, ih, List.map_cons]
    by_cases hmem : m.name ∈ acc.map Prod.fst
    · have hl : ¬ (dictLookup acc m.name = none) :=
        fun h => (dictLookup_none_iff_not_mem_keys acc m.name).mp h hmem
      rw [consolidateStep_keys, if_neg hl]
      rw [show dedupFirstAux (acc.map Prod.fst) (m.name :: rest.map Mention.name) =
          dedupFirstAux (acc.map Prod.fst) (rest.map Mention.name) by
        simp [dedupFirstAux, hmem]]
    · have hl : dictLookup acc m.name = none :=
        (dictLookup_none_iff_not_mem_keys acc m.name).mpr hmem
      rw [consolidateStep_keys, if_pos hl]
      rw [show dedupFirstAux (acc.map Prod.fst) (m.name :: rest.map Mention.name) =
          m.name :: dedupFirstAux (m.name :: acc.map Prod.fst) (rest.map Mention.name) by
        simp [dedupFirstAux, hmem]]
      rw [dedupFirstAux_congr (rest.map Mention.name) (acc.map Prod.fst ++ [m.name])
        (m.name :: acc.map Prod.fst) (fun x => by
          simp only [List.mem_append, List.mem_cons, List.not_mem_nil, or_false]
          exact or_comm)]
      rw [List.append_assoc, List.singleton_append]

theorem consolidate_keys (pl : PriceList) (cfg : Config) (ms : List Mention) :
    (consolidate pl cfg ms).map Prod.fst = dedupFirst (ms.map Mention.name) := by
  have h := consolidate_keys_aux pl cfg ms []
  simpa [dedupFirst] using h

theorem consolidate_entry_value (pl : PriceList) (cfg : Config) :
    ∀ (ms : List Mention) (acc : List (Str × Item)),
      (∀ p ∈ acc, p.2.product_name.value = some p.1) →
      ∀ p ∈ ms.foldl (consolidateStep pl cfg) acc, p.2.product_name.value = some p.1 := by
  intro ms
  induction ms with
  | nil =>
    intro acc hacc p hp
    exact hacc p hp
  | cons m rest ih =>
    intro acc hacc p hp
    rw [List.foldl_cons] at hp
    refine ih _ ?_ p hp
    intro q hq
    unfold consolidateStep at hq
    cases hl : dictLookup acc m.name with
    | none =>
      simp only [hl] at hq
      rcases List.mem_append.mp hq with hq' | hq'
      · exact hacc q hq'
      · rw [List.mem_singleton.mp hq']
        rfl
    | some it0 =>
      simp only [hl] at hq
      obtain ⟨p0, hp0, rfl⟩ := List.mem_map.mp hq
      by_cases hk : p0.1 = m.name
      · rw [if_pos hk]
        show (mergeItem p0.2 m).product_name.value = some p0.1
        rw [mergeItem_product_value]
        exact hacc p0 hp0
      · rw [if_neg hk]
        exact hacc p0 hp0

theorem dedupFirstAux_filter_char :
    ∀ (l seen : List Str),
      dedupFirstAux seen l = (dedupFirst l).filter (fun c => !(seen.contains c)) := by
  intro l
  induction l with
  | nil => intro seen; rfl
  | cons c rest ih =>
    intro seen
    have hdedup : dedupFirst (c :: rest) = c :: dedupFirstAux [ c ] rest := by
      simp [dedupFirst, dedupFirstAux]
    by_cases hc : c ∈ seen
    · rw [show dedupFirstAux seen (c :: rest) = dedupFirstAux seen rest by
        simp [dedupFirstAux, hc]]
      rw [ih seen, hdedup]
      rw [show (c :: dedupFirstAux [ c ] rest).filter (fun x => !(seen.contains x)) =
          (dedupFirstAux [ c ] rest).filter (fun x => !(seen.contains x)) by
        simp [List.filter_cons, hc]]
      rw [ih [ c ], List.filter_filter]
      apply List.filter_congr
      intro x _
      by_cases hx : x ∈ seen
      · simp [hx]
      · have hxc : ¬ (x = c) := fun h => hx (h ▸ hc)
        simp [hx, hxc, Bool.and_comm]
    · rw [show dedupFirstAux seen (c :: rest) = c :: dedupFirstAux (c :: seen) rest by
        simp [dedupFirstAux, hc]]
      rw [ih (c :: seen), hdedup]
      rw [show (c :: dedupFirstAux [ c ] rest).filter (fun x => !(seen.contains x)) =
          c :: (dedupFirstAux [ c ] rest).filter (fun x => !(seen.contains x)) by
        simp [List.filter_cons, hc]]
      rw [ih [ c ], List.filter_filter]
      congr 1
      apply List.filter_congr
      intro x _
      by_cases hxc : x = c
      · subst hxc
        simp
      · by_cases hx : x ∈ seen
        · simp [hx, hxc, Bool.and_comm]
        · simp [hx, hxc, Bool.and_comm]

theorem dedupFirstAux_append :
    ∀ (a seen b : List Str),
      dedupFirstAux seen (a ++ b) = dedupFirstAux seen a ++ dedupFirstAux (a ++ seen) b := by
  intro a
  induction a with
  | nil => intro seen b; simp [dedupFirstAux]
  | cons c rest ih =>
    intro seen b
    rw [List.cons_append]
    by_cases hc : c ∈ seen
    · rw [show dedupFirstAux seen (c :: (rest ++ b)) = dedupFirstAux seen (rest ++ b) by
        simp [dedupFirstAux, hc]]
      rw [show dedupFirstAux seen (c :: rest) = dedupFirstAux seen rest by
        simp [dedupFirstAux, hc]]
      rw [ih seen b]
      congr 1
      apply dedupFirstAux_congr
      intro x
      simp only [List.mem_append, List.mem_cons]
      constructor
      · intro h
        tauto
      · intro h
        rcases h with h | h
        · rcases h with rfl | h
          · tauto
          · tauto
        · tauto
    · rw [show dedupFirstAux seen (c :: (rest ++ b)) =
          c :: dedupFirstAux (c :: seen) (rest ++ b) by simp [dedupFirstAux, hc]]
      rw [show dedupFirstAux seen (c :: rest) = c :: dedupFirstAux (c :: seen) rest by
        simp [dedupFirstAux, hc]]
      rw [ih (c :: seen) b, List.cons_append]
      congr 2
      apply dedupFirstAux_congr
      intro x
      simp only [List.mem_append, List.mem_cons]
      tauto

theorem dedupFirst_append (a b : List Str) :
    dedupFirst (a ++ b) =
      dedupFirst a ++ (dedupFirst b).filter (fun c => !(a.contains c)) := by
  rw [dedupFirst, dedupFirstAux_append a [] b]
  congr 1
  rw [show a ++ ([] : List Str) = a from List.append_nil a]
  exact dedupFirstAux_filter_char b a

theorem dedupFirstAux_nodup :
    ∀ (l seen : List Str),
      (dedupFirstAux seen l).Nodup ∧ ∀ c ∈ dedupFirstAux seen l, ¬ c ∈ seen := by
  intro l
  induction l with
  | nil =>
    intro seen
    exact ⟨List.nodup_nil, by simp [dedupFirstAux]⟩
  | cons a rest ih =>
    intro seen
    by_cases ha : a ∈ seen
    · rw [show dedupFirstAux seen (a :: rest) = dedupFirstAux seen rest by
        simp [dedupFirstAux, ha]]
      exact ih seen
    · rw [show dedupFirstAux seen (a :: rest) = a :: dedupFirstAux (a :: seen) rest by
        simp [dedupFirstAux, ha]]
      obtain ⟨hnd, hnot⟩ := ih (a :: seen)
      refine ⟨List.nodup_cons.mpr ⟨fun hmem => hnot a hmem (List.mem_cons_self _ _), hnd⟩, ?_⟩
      intro c hc
      rcases List.mem_cons.mp hc with rfl | hc'
      · exact ha
      · exact fun hcs => hnot c hc' (List.mem_cons_of_mem _ hcs)

theorem dedupFirstAux_of_nodup :
    ∀ (l : List Str), l.Nodup → ∀ seen, (∀ c ∈ l, ¬ c ∈ seen) →
      dedupFirstAux seen l = l := by
  intro l
  induction l with
  | nil => intro _ seen _; rfl
  | cons a rest ih =>
    intro hnd seen hdisj
    have ha : ¬ a ∈ seen := hdisj a (List.mem_cons_self _ _)
    rw [show dedupFirstAux seen (a :: rest) = a :: dedupFirstAux (a :: seen) rest by
      simp [dedupFirstAux, ha]]
    congr 1
    refine ih (List.nodup_cons.mp hnd).2 (a :: seen) ?_
    intro c hc hcs
    rcases List.mem_cons.mp hcs with rfl | hcs'
    · exact (List.nodup_cons.mp hnd).1 hc
    · exact hdisj c (List.mem_cons_of_mem _ hc) hcs'

theorem dedupFirst_idem (l : List Str) : dedupFirst (dedupFirst l) = dedupFirst l :=
  dedupFirstAux_of_nodup _ (dedupFirstAux_nodup l []).1 [] (by simp)

theorem items_names (pl : PriceList) (cfg : Config) (ms : List Mention) :
    ((consolidate pl cfg ms).map (fun p => p.2)).map (fun it => it.product_name.value) =
      (dedupFirst (ms.map Mention.name)).map some := by
  rw [List.map_map]
  have hpt : ∀ p ∈ consolidate pl cfg ms,
      ((fun it : Item => it.product_name.value) ∘ (fun p : Str × Item => p.2)) p =
        (some ∘ Prod.fst) p :=
    fun p hp => consolidate_entry_value pl cfg ms [] (by simp) p hp
  rw [List.map_congr_left hpt, ← List.map_map, consolidate_keys]

theorem unknownMentions_names (cands : List Str) :
    (unknownMentions cands).map Mention.name = dedupFirst cands := by
  unfold unknownMentions
  rw [List.map_map]
  have h : (Mention.name ∘ (fun c : Str =>
      Mention.mk c none ((2 : ℚ)/10) (( r"unknown product").toList))) = id := rfl
  rw [h, List.map_id]

theorem map_const_eq_replicate (l : List α) (b : β) :
    l.map (fun _ => b) = List.replicate l.length b := by
  induction l with
  | nil => rfl
  | cons a rest ih => simp [ih, List.replicate_succ]

theorem mentionsForAlias_names (body key canonical : Str) :
    (mentionsForAlias body key canonical).map Mention.name =
      List.replicate (mentionsForAlias body key canonical).length canonical := by
  unfold mentionsForAlias
  rw [List.map_append, List.map_map, List.map_map, List.length_append,
    List.length_map, List.length_map, List.replicate_add]
  congr 1
  · exact map_const_eq_replicate _ _
  · exact map_const_eq_replicate _ _

/-- C10: in every Event the item names are: first the known-product names
(in first-mention order of the alias map), then the surviving unknown
candidates not colliding with a known name, in first-seen order; and the
known mention stream is grouped by the alias map's iteration order (each
alias contributes a block of its canonical name), not by position in the
body text. -/
theorem C10_theorem (pl : PriceList) (cfg : Config) (text : Str) :
    ((parse pl cfg text).items.map (fun it => it.product_name.value) =
      (let pn := buildProductNames (pl.map (fun p => p.1))
       let body := (splitFirst text [ '\n', '\n' ]).2.getD []
       let knownNames := (knownMentions pn (lowerStr body)).map Mention.name
       let cands := conjCandidates pn body ++ verbCandidates pn (tokenize body)
       (dedupFirst knownNames ++
         (dedupFirst cands).filter (fun c => !(knownNames.contains c))).map some)) ∧
    (∀ (pn : List (Str × Str)) (bl : Str),
      (knownMentions pn bl).map Mention.name =
        pn.flatMap (fun kc =>
          if !(lowerStr kc.2 == kc.1) && !(lowerStr kc.2 ++ [ 's' ] == kc.1) then []
          else List.replicate (mentionsForAlias bl kc.1 kc.2).length kc.2)) := by
  constructor
  · show ((consolidate pl cfg _).map (fun p => p.2)).map (fun it => it.product_name.value) = _
    rw [items_names]
    rw [List.map_append, unknownMentions_names, dedupFirst_append, dedupFirst_idem]
  · intro pn bl
    unfold knownMentions
    rw [List.map_flatMap]
    apply List.flatMap_congr
    intro kc _
    by_cases hg : (!(lowerStr kc.2 == kc.1) && !(lowerStr kc.2 ++ [ 's' ] == kc.1)) = true
    · simp [hg]
    · simp only [hg, if_neg, Bool.not_eq_true]
      exact mentionsForAlias_names bl kc.1 kc.2

theorem C9_witness :
    (parse [] ⟨none, none, none⟩ (( r"hello").toList)).email_id =
      (parse [ (( r"Widget").toList, ⟨none⟩) ] ⟨some (( r"EUR").toList), none, none⟩
        (( r"hello").toList)).email_id ∧
    (parse [] ⟨none, none, none⟩ (( r"hello").toList)).email_id.length = 16 :=
  ⟨C9_theorem.1 _ _ _ _ _ _ rfl, (C9_theorem.2 _ _ _).2.1⟩

end ProcessEmails
